import Mathlib

/-! # cxx-async: the command/answer codec, the accumulator and the server session

A shallow embedding of `src/computer.hpp`, of the framing and the server
session of `src/main_asio.cpp`, and of the framing of `src/main_cobalt.cpp`.

* C++ `std::string` / `std::string_view` values are lists of characters.
* C++ `int` is a 32-bit two's complement integer; it is embedded as an `Int`
  together with the range predicate `inRange`.  Signed overflow and division
  by zero are undefined behaviour of the C++ abstract machine; the embedding
  reports them as a `Fault` instead of picking a value.
* `result<T>` (Boost.Outcome) is `Except ComputeError T`.
-/

namespace CxxAsync

/-! ## Library functions used by the source -/

/-- The predicate `std::isspace` in the "C" locale: space, `\t`, `\n`, `\v`,
`\f` and `\r`, that is the codes 32 and 9 to 13. -/
def isspace (c : Char) : Bool :=
  c.toNat == 32 || (9 ≤ c.toNat && c.toNat ≤ 13)

/-- The call `boost::algorithm::split(parts, s, isspace, token_compress_on)`.
The input is cut at every maximal run of delimiter characters (adjacent
delimiters are compressed into one cut).  A string with `n` runs gives `n + 1`
tokens: a run at the very start leaves an empty first token, a run at the very
end leaves an empty last token, and the empty string gives the single token
`""` (the split iterator always yields at least one token). -/
def split : List Char → List (List Char)
  | [] => [[]]
  | c :: cs =>
    match split cs with
    | [] => [[c]]
    | t :: ts =>
      if isspace c then
        match cs with
        | [] => [[], []]
        | d :: _ => if isspace d then t :: ts else [] :: t :: ts
      else (c :: t) :: ts

/-- The two exceptions `std::stoi` throws. -/
inductive StoiError where
  | invalid_argument
  | out_of_range
  deriving DecidableEq, Repr

/-- A decimal digit, `'0'` to `'9'`. -/
def isdigit (c : Char) : Bool :=
  48 ≤ c.toNat && c.toNat ≤ 57

/-- The value of a decimal digit character. -/
def digitValue (c : Char) : Nat := c.toNat - 48

/-- The number written by a run of decimal digits, most significant first. -/
def digitsValue (ds : List Char) : Nat :=
  ds.foldl (fun acc c => 10 * acc + digitValue c) 0

/-- The least value of a C++ `int`. -/
def INT_MIN : Int := -2147483648

/-- The greatest value of a C++ `int`. -/
def INT_MAX : Int := 2147483647

/-- Representable as a C++ `int` (32 bits, two's complement). -/
def inRange (n : Int) : Prop := INT_MIN ≤ n ∧ n ≤ INT_MAX

instance (n : Int) : Decidable (inRange n) := by
  unfold inRange; infer_instance

/-- The digits part of `std::stoi`, after white space and sign: the longest
run of decimal digits is converted and whatever follows it is ignored.  No
digit at all is `std::invalid_argument`; a value that does not fit an `int` is
`std::out_of_range`. -/
def stoiDigits (negative : Bool) (s : List Char) : Except StoiError Int :=
  let ds := s.takeWhile isdigit
  if ds = [] then .error .invalid_argument
  else
    let n : Int := if negative then -(digitsValue ds : Int) else (digitsValue ds : Int)
    if inRange n then .ok n else .error .out_of_range

/-- The call `std::stoi(str)` (base 10, as `strtol` does it): leading white
space is skipped, one optional sign `+` or `-` is read, then the digits. -/
def stoi (str : List Char) : Except StoiError Int :=
  match str.dropWhile isspace with
  | [] => .error .invalid_argument
  | c :: cs =>
    if c = '-' then stoiDigits true cs
    else if c = '+' then stoiDigits false cs
    else stoiDigits false (c :: cs)

/-- Decimal digit character of a number below ten. -/
def digitChar (d : Nat) : Char := Char.ofNat (48 + d)

/-- The decimal digits of a natural number, most significant first, without
leading zeros (`"0"` for zero); `fuel` bounds the number of digits. -/
def natDigits : Nat → Nat → List Char
  | 0, n => [digitChar (n % 10)]
  | fuel + 1, n =>
    if n < 10 then [digitChar n] else natDigits fuel (n / 10) ++ [digitChar (n % 10)]

/-- The text an `int` is written as by `operator<<` on a stream in the classic
locale and by `std::to_string`: decimal, a leading `-` for negative values. -/
def intToString (v : Int) : List Char :=
  if v < 0 then '-' :: natDigits v.natAbs v.natAbs else natDigits v.natAbs v.natAbs

/-! ## Error handling types -/

/-- The enumeration `ComputeError`. -/
inductive ComputeError where
  | NotACommand
  | NotAnAnswer
  | MissingValue
  | InvalidValue
  | ValueOutOfRange
  | DivisionByZero
  deriving DecidableEq, Repr

deriving instance DecidableEq for Except

/-! ## Commands -/

/-- The variant `Command`: `Init`, `Add`, `Mul`, `Div` carry an `int`. -/
inductive Command where
  | Init (value : Int)
  | Add (value : Int)
  | Mul (value : Int)
  | Div (value : Int)
  | Compute
  deriving DecidableEq, Repr

/-- The function `Command::from_string`. -/
def Command.from_string (s : List Char) : Except ComputeError Command :=
  match split s with
  | [] => .error .NotACommand
  | name :: rest =>
    if name = "compute".toList then .ok .Compute
    else
      match rest with
      | [] => .error .MissingValue
      | value_str :: _ =>
        match stoi value_str with
        | .error .invalid_argument => .error .InvalidValue
        | .error .out_of_range => .error .ValueOutOfRange
        | .ok value =>
          if name = "init".toList then .ok (.Init value)
          else if name = "add".toList then .ok (.Add value)
          else if name = "mul".toList then .ok (.Mul value)
          else if name = "div".toList then
            if value = 0 then .error .DivisionByZero
            else .ok (.Div value)
          else .error .NotACommand

/-- What the C++ abstract machine leaves undefined in `Command::run`: an
integer division by zero, and a signed result that does not fit an `int`
(which includes the least `int` divided by `-1`). -/
inductive Fault where
  | divide_by_zero
  | signed_overflow
  deriving DecidableEq, Repr

/-- The function `Command::run`, on the accumulator `value` it receives by
reference: the result is the new accumulator together with the returned
`std::optional<int>`.  C++ `/` on `int` truncates toward zero (`Int.tdiv`). -/
def Command.run (command : Command) (value : Int) : Except Fault (Int × Option Int) :=
  match command with
  | .Init v => .ok (v, none)
  | .Add v =>
    if inRange (value + v) then .ok (value + v, none) else .error .signed_overflow
  | .Mul v =>
    if inRange (value * v) then .ok (value * v, none) else .error .signed_overflow
  | .Div v =>
    if v = 0 then .error .divide_by_zero
    else if inRange (Int.tdiv value v) then .ok (Int.tdiv value v, none)
    else .error .signed_overflow
  | .Compute => .ok (value, some value)

/-- The function `to_string(const Command&)`. -/
def Command.to_string (command : Command) : List Char :=
  match command with
  | .Init v => "init ".toList ++ intToString v
  | .Add v => "add ".toList ++ intToString v
  | .Mul v => "mul ".toList ++ intToString v
  | .Div v => "div ".toList ++ intToString v
  | .Compute => "compute".toList

/-! ## Answers -/

/-- The structure `Answer`. -/
structure Answer where
  value : Int
  deriving DecidableEq, Repr

/-- The function `Answer::from_string`. -/
def Answer.from_string (s : List Char) : Except ComputeError Answer :=
  match split s with
  | [] => .error .NotACommand
  | name :: rest =>
    if name ≠ "answer".toList then .error .NotAnAnswer
    else
      match rest with
      | [] => .error .MissingValue
      | value_str :: _ =>
        match stoi value_str with
        | .error .invalid_argument => .error .InvalidValue
        | .error .out_of_range => .error .ValueOutOfRange
        | .ok value => .ok ⟨value⟩

/-- The function `to_string(const Answer&)`. -/
def Answer.to_string (answer : Answer) : List Char :=
  "answer ".toList ++ intToString answer.value

/-! ## The server session of `main_asio.cpp` -/

/-- The bytes `send(socket, value)` writes for a message: the text followed
by one newline. -/
def send (message : List Char) : List Char := message ++ [Char.ofNat 10]

/-- How a run of the coroutine `compute` ends. -/
inductive SessionEnd where
  /-- `co_return value` after the answer was sent. -/
  | returned (value : Int)
  /-- `BOOST_OUTCOME_CO_TRY` returned the error of `from_string`. -/
  | failed (e : ComputeError)
  /-- The stream ended: `async_read_until` threw. -/
  | closed
  /-- `Command::run` left defined behaviour. -/
  | fault (f : Fault)
  deriving DecidableEq, Repr

/-- What a session did: the writes on the socket, in order, and its end. -/
structure Session where
  sent : List (List Char)
  ending : SessionEnd
  deriving DecidableEq, Repr

/-- The loop of the coroutine `compute`, with `value` the accumulator.  The
argument `lines` holds the messages that the successive calls of
`recv.next<Command>()` frame (each without its newline), until the stream
ends. -/
def compute_loop : List (List Char) → Int → Session
  | [], _ => ⟨[], .closed⟩
  | line :: lines, value =>
    match Command.from_string line with
    | .error e => ⟨[], .failed e⟩
    | .ok command =>
      match command.run value with
      | .error f => ⟨[], .fault f⟩
      | .ok (_, some result) => ⟨[send (Answer.to_string ⟨result⟩)], .returned result⟩
      | .ok (value, none) => compute_loop lines value

/-- The coroutine `compute` of `main_asio.cpp`: the accumulator starts at 0. -/
def compute (lines : List (List Char)) : Session := compute_loop lines 0

/-- The accumulator after the commands `cs` are applied in order with
`Command::run`, outputs ignored. -/
def run_all : List Command → Int → Except Fault Int
  | [], value => .ok value
  | c :: cs, value =>
    match c.run value with
    | .error f => .error f
    | .ok (value, _) => run_all cs value

/-- A command a C++ client can hold and the codec accepts: the operand is an
`int`, and the operand of `Div` is not zero. -/
def Command.valid : Command → Prop
  | .Init v => inRange v
  | .Add v => inRange v
  | .Mul v => inRange v
  | .Div v => inRange v ∧ v ≠ 0
  | .Compute => True

/-! ## Lines with added white space -/

/-- The line `t` is the line `s` with white space characters added, each one
next to a white space character that is already there (in a line that parses:
between two tokens, or after the last token) or at the end of the line. -/
inductive Padded : List Char → List Char → Prop where
  | same (s : List Char) : Padded s s
  | after_space (s a b : List Char) (x sp : Char) :
      Padded s (a ++ x :: b) → isspace x = true → isspace sp = true →
      Padded s (a ++ x :: sp :: b)
  | before_space (s a b : List Char) (x sp : Char) :
      Padded s (a ++ x :: b) → isspace x = true → isspace sp = true →
      Padded s (a ++ sp :: x :: b)
  | at_end (s t : List Char) (sp : Char) :
      Padded s t → isspace sp = true → Padded s (t ++ [sp])

/-! ## Framing: `Receive` of `main_asio.cpp` and `receive` of `main_cobalt.cpp` -/

/-- The delimiter `"\n"` of the framing. -/
def newline : Char := Char.ofNat 10

/-- The position of the first delimiter in the searched data, if there is
one. -/
def find_delim : List Char → Option Nat
  | [] => none
  | c :: cs => if c = newline then some 0 else (find_delim cs).map (· + 1)

/-- The two errors `async_read_until` completes with: the end of the stream
(`boost::asio::error::eof`) and a full buffer without delimiter
(`boost::asio::error::not_found`).  Awaited with `use_awaitable` (or `use_op`)
they are thrown as `boost::system::system_error`. -/
inductive ReadError where
  | eof
  | not_found
  deriving DecidableEq, Repr

/-- The structure `Receive` (in `main_cobalt.cpp`: the frame of the generator
`receive`): its buffer, and for its socket the reads that the socket will
still complete, each with the bytes it delivers; no further read, or a read
that delivers no byte, is the end of the stream. -/
structure Receive where
  socket : List (List Char)
  buffer : List Char
  deriving DecidableEq, Repr

/-- The function `receive(socket)` of `main_asio.cpp`: a `Receive` with an
empty buffer. -/
def receive (socket : List (List Char)) : Receive := ⟨socket, []⟩

/-- The call `async_read_until(socket, dynamic_buffer(buffer, max_size), "\n")`
of Boost.Asio.  The first `max_size` bytes of the buffer are searched; a
delimiter at position `i` completes the call with the size `i + 1`.  Without
one, a full buffer completes it with `not_found`; else one read of at most
`max_size - buffer.size()` bytes is appended and the search is repeated (a
read cut short by that limit fills the buffer, so the repeated search ends the
call).  The result is the size together with the socket and the buffer as the
call leaves them.  The first equation is the socket at the end of its stream,
the second the socket with a read `chunk` to complete. -/
def async_read_until (max_size : Nat) :
    List (List Char) → List Char → Except ReadError (Nat × Receive)
  | [], buffer =>
    match find_delim (buffer.take max_size) with
    | some i => .ok (i + 1, ⟨[], buffer⟩)
    | none =>
      if max_size ≤ buffer.length then .error .not_found
      else .error .eof
  | chunk :: later, buffer =>
    match find_delim (buffer.take max_size) with
    | some i => .ok (i + 1, ⟨chunk :: later, buffer⟩)
    | none =>
      if max_size ≤ buffer.length then .error .not_found
      else if chunk = [] then .error .eof
      else if chunk.length ≤ max_size - buffer.length then
        async_read_until max_size later (buffer ++ chunk)
      else
        match find_delim (buffer ++ chunk.take (max_size - buffer.length)) with
        | some i => .ok (i + 1, ⟨chunk.drop (max_size - buffer.length) :: later,
            buffer ++ chunk.take (max_size - buffer.length)⟩)
        | none => .error .not_found

/-- The same call `async_read_until`, with the socket and the buffer as the
call leaves them whatever its outcome: every read is committed to the buffer
before the search is repeated, so a call that completes with an error leaves
in the buffer what it has read. -/
def async_read_until_state (max_size : Nat) :
    List (List Char) → List Char → Except ReadError Nat × Receive
  | [], buffer =>
    match find_delim (buffer.take max_size) with
    | some i => (.ok (i + 1), ⟨[], buffer⟩)
    | none =>
      if max_size ≤ buffer.length then (.error .not_found, ⟨[], buffer⟩)
      else (.error .eof, ⟨[], buffer⟩)
  | chunk :: later, buffer =>
    match find_delim (buffer.take max_size) with
    | some i => (.ok (i + 1), ⟨chunk :: later, buffer⟩)
    | none =>
      if max_size ≤ buffer.length then (.error .not_found, ⟨chunk :: later, buffer⟩)
      else if chunk = [] then (.error .eof, ⟨later, buffer⟩)
      else if chunk.length ≤ max_size - buffer.length then
        async_read_until_state max_size later (buffer ++ chunk)
      else
        match find_delim (buffer ++ chunk.take (max_size - buffer.length)) with
        | some i => (.ok (i + 1), ⟨chunk.drop (max_size - buffer.length) :: later,
            buffer ++ chunk.take (max_size - buffer.length)⟩)
        | none => (.error .not_found, ⟨chunk.drop (max_size - buffer.length) :: later,
            buffer ++ chunk.take (max_size - buffer.length)⟩)

/-- The coroutine `Receive::next<T>` of `main_asio.cpp`, with `from_string`
for `T::from_string`: an error of `async_read_until` is thrown; otherwise the
result of `from_string` on the message is returned, and the buffer keeps what
follows the delimiter. -/
def Receive.next {T : Type} (from_string : List Char → Except ComputeError T)
    (recv : Receive) : Except ReadError (Except ComputeError T × Receive) :=
  match async_read_until 256 recv.socket recv.buffer with
  | .error e => .error e
  | .ok (size, read) =>
    let message := read.buffer.take (size - 1)
    .ok (from_string message, ⟨read.socket, read.buffer.drop size⟩)

/-- What one round of the generator `receive<T>` of `main_cobalt.cpp` throws:
the error of `async_read_until`, or the error of `from_string` through
`.value()`. -/
inductive ReceiveThrow where
  | read (e : ReadError)
  | value (e : ComputeError)
  deriving DecidableEq, Repr

/-- One round of the generator `receive<T>` of `main_cobalt.cpp`, up to its
`co_yield`.  The call `dynamic_buffer(buffer)` sets no bound of its own: its
maximum size is that of `std::size_t`, the parameter `size_max`. -/
def Cobalt.receive {T : Type} (size_max : Nat)
    (from_string : List Char → Except ComputeError T) (recv : Receive) :
    Except ReceiveThrow (T × Receive) :=
  match async_read_until size_max recv.socket recv.buffer with
  | .error e => .error (.read e)
  | .ok (size, read) =>
    let message := read.buffer.take (size - 1)
    match from_string message with
    | .error e => .error (.value e)
    | .ok value => .ok (value, ⟨read.socket, read.buffer.drop size⟩)

/-! ## The error category -/

/-- The conversion `static_cast<int>(e)` of `make_error_code`: the enumerators
of `ComputeError` count from 0 in the order they are declared. -/
def ComputeError.code : ComputeError → Int
  | .NotACommand => 0
  | .NotAnAnswer => 1
  | .MissingValue => 2
  | .InvalidValue => 3
  | .ValueOutOfRange => 4
  | .DivisionByZero => 5

/-- The two values of `std::errc` the category maps to. -/
inductive Errc where
  | invalid_argument
  | result_out_of_range
  deriving DecidableEq, Repr

/-- A `std::error_condition`: a value of `std::errc` in the generic category
(`make_error_condition`), or a value `c` in `ComputeErrorCategory` itself
(`std::error_condition(c, *this)`). -/
inductive ErrorCondition where
  | generic (e : Errc)
  | compute (c : Int)
  deriving DecidableEq, Repr

/-- The function `ComputeErrorCategory::default_error_condition`. -/
def ComputeErrorCategory.default_error_condition (c : Int) : ErrorCondition :=
  if c = ComputeError.NotACommand.code ∨ c = ComputeError.NotAnAnswer.code
      ∨ c = ComputeError.MissingValue.code ∨ c = ComputeError.InvalidValue.code
      ∨ c = ComputeError.DivisionByZero.code then
    .generic .invalid_argument
  else if c = ComputeError.ValueOutOfRange.code then
    .generic .result_out_of_range
  else .compute c

/-! ## The grammar of integer tokens, as the specification words it -/

/-- A token without its optional sign `+` or `-`. -/
def unsigned (tok : List Char) : List Char :=
  match tok with
  | [] => []
  | c :: cs => if c = '-' ∨ c = '+' then cs else c :: cs

/-- A valid decimal signed integer in the words of the specification: an
optional sign followed by one or more decimal digits and nothing else. -/
def isDecimalInt (tok : List Char) : Bool :=
  (unsigned tok).all isdigit && !(unsigned tok).isEmpty

/-- A token that begins as a decimal signed integer does: an optional sign
followed by at least one decimal digit, whatever comes after. -/
def startsDecimalInt (tok : List Char) : Bool :=
  match unsigned tok with
  | [] => false
  | d :: _ => isdigit d

/-- The number a valid decimal signed integer denotes. -/
def decimalValue (tok : List Char) : Int :=
  match tok with
  | [] => 0
  | c :: cs => if c = '-' then -(digitsValue cs : Int) else (digitsValue (unsigned (c :: cs)) : Int)

/-! ## Lemmas on digits and `stoi` -/

theorem digitChar_toNat {d : Nat} (h : d < 10) : (digitChar d).toNat = 48 + d := by
  interval_cases d <;> rfl

theorem isdigit_digitChar {d : Nat} (h : d < 10) : isdigit (digitChar d) = true := by
  simp [isdigit, digitChar_toNat h]; omega

theorem digitValue_digitChar {d : Nat} (h : d < 10) : digitValue (digitChar d) = d := by
  simp [digitValue, digitChar_toNat h]

theorem digitsValue_snoc (l : List Char) (c : Char) :
    digitsValue (l ++ [c]) = 10 * digitsValue l + digitValue c := by
  simp [digitsValue, List.foldl_append]

theorem natDigits_ne_nil (fuel n : Nat) : natDigits fuel n ≠ [] := by
  cases fuel with
  | zero => simp [natDigits]
  | succ f =>
    unfold natDigits
    split <;> simp

theorem isdigit_of_mem_natDigits (fuel n : Nat) :
    ∀ c ∈ natDigits fuel n, isdigit c = true := by
  induction fuel generalizing n with
  | zero =>
    intro c hc
    simp only [natDigits, List.mem_singleton] at hc
    subst hc
    exact isdigit_digitChar (Nat.mod_lt _ (by decide))
  | succ f ih =>
    intro c hc
    unfold natDigits at hc
    split at hc
    · simp only [List.mem_singleton] at hc
      subst hc
      exact isdigit_digitChar (by assumption)
    · rcases List.mem_append.mp hc with h | h
      · exact ih _ c h
      · simp only [List.mem_singleton] at h
        subst h
        exact isdigit_digitChar (Nat.mod_lt _ (by decide))

theorem digitsValue_natDigits (fuel n : Nat) (h : n ≤ fuel) :
    digitsValue (natDigits fuel n) = n := by
  induction fuel generalizing n with
  | zero =>
    have : n = 0 := by omega
    subst this
    rfl
  | succ f ih =>
    unfold natDigits
    split
    · rename_i hlt
      simp [digitsValue, digitValue_digitChar hlt]
    · rw [digitsValue_snoc, ih (n / 10) (by omega),
        digitValue_digitChar (Nat.mod_lt _ (by decide))]
      omega

theorem takeWhile_eq_self_of_all {p : Char → Bool} (l : List Char)
    (h : ∀ c ∈ l, p c = true) : l.takeWhile p = l := by
  induction l with
  | nil => rfl
  | cons a l ih =>
    have ha : p a = true := h a (List.mem_cons_self _ _)
    simp only [List.takeWhile_cons, ha, if_true]
    rw [ih (fun c hc => h c (List.mem_cons_of_mem _ hc))]

theorem not_isspace_of_isdigit {c : Char} (h : isdigit c = true) : isspace c = false := by
  simp [isdigit] at h
  simp [isspace]
  omega

theorem stoiDigits_natDigits (negative : Bool) (n : Nat) :
    stoiDigits negative (natDigits n n) =
      (let v : Int := if negative then -(n : Int) else (n : Int)
       if inRange v then .ok v else .error .out_of_range) := by
  unfold stoiDigits
  simp only [takeWhile_eq_self_of_all _ (isdigit_of_mem_natDigits n n),
    natDigits_ne_nil, if_false, digitsValue_natDigits n n (le_refl n)]

/-- Reading back what was written: `std::stoi` of the decimal text of an `int`
is that `int`. -/
theorem stoi_intToString (v : Int) (h : inRange v) : stoi (intToString v) = .ok v := by
  unfold intToString
  by_cases hv : v < 0
  · simp only [hv, if_true]
    have h1 : stoi ('-' :: natDigits v.natAbs v.natAbs)
        = stoiDigits true (natDigits v.natAbs v.natAbs) := by
      simp [stoi, isspace]
    rw [h1, stoiDigits_natDigits]
    have h2 : -((v.natAbs : Nat) : Int) = v := by omega
    simp only [if_true, h2]
    rw [if_pos h]
  · simp only [hv, if_false]
    obtain ⟨c, cs, hcs⟩ : ∃ c cs, natDigits v.natAbs v.natAbs = c :: cs := by
      cases hnd : natDigits v.natAbs v.natAbs with
      | nil => exact absurd hnd (natDigits_ne_nil _ _)
      | cons c cs => exact ⟨c, cs, rfl⟩
    have hc : isdigit c = true :=
      isdigit_of_mem_natDigits v.natAbs v.natAbs c (by rw [hcs]; exact List.mem_cons_self _ _)
    have hsp : isspace c = false := not_isspace_of_isdigit hc
    have hminus : c ≠ '-' := by
      intro hh; subst hh; simp [isdigit] at hc
    have hplus : c ≠ '+' := by
      intro hh; subst hh; simp [isdigit] at hc
    have h1 : stoi (natDigits v.natAbs v.natAbs)
        = stoiDigits false (natDigits v.natAbs v.natAbs) := by
      rw [hcs]
      simp [stoi, hsp, hminus, hplus]
    rw [h1, stoiDigits_natDigits]
    have h2 : ((v.natAbs : Nat) : Int) = v := by omega
    simp only [Bool.false_eq_true, if_false, h2]
    rw [if_pos h]

/-! ## Lemmas on `split` -/

theorem split_ne_nil (s : List Char) : split s ≠ [] := by
  cases s with
  | nil => simp [split]
  | cons c cs =>
    unfold split
    split
    · simp
    · split
      · split
        · simp
        · split <;> simp
      · simp

theorem split_cons_of_not_isspace (c : Char) (cs : List Char) (h : isspace c = false) :
    split (c :: cs) = (c :: (split cs).headD []) :: (split cs).tail := by
  conv => lhs; unfold split
  cases hs : split cs with
  | nil => exact absurd hs (split_ne_nil cs)
  | cons t ts => simp [h]

theorem split_of_no_space (t : List Char) (h : ∀ c ∈ t, isspace c = false) :
    split t = [t] := by
  induction t with
  | nil => rfl
  | cons a t ih =>
    rw [split_cons_of_not_isspace a t (h a (List.mem_cons_self _ _)),
      ih (fun c hc => h c (List.mem_cons_of_mem _ hc))]
    rfl

theorem split_space_cons (sp d : Char) (rest : List Char) (hsp : isspace sp = true)
    (hd : isspace d = false) : split (sp :: d :: rest) = [] :: split (d :: rest) := by
  conv => lhs; unfold split
  cases hs : split (d :: rest) with
  | nil => exact absurd hs (split_ne_nil _)
  | cons t ts => simp [hsp, hd]

theorem split_token_then (t : List Char) (sp d : Char) (rest : List Char)
    (ht : ∀ c ∈ t, isspace c = false) (hsp : isspace sp = true) (hd : isspace d = false) :
    split (t ++ sp :: d :: rest) = t :: split (d :: rest) := by
  induction t with
  | nil => exact split_space_cons sp d rest hsp hd
  | cons a t ih =>
    rw [List.cons_append, split_cons_of_not_isspace a _ (ht a (List.mem_cons_self _ _)),
      ih (fun c hc => ht c (List.mem_cons_of_mem _ hc))]
    rfl

theorem intToString_no_space (v : Int) : ∀ c ∈ intToString v, isspace c = false := by
  intro c hc
  unfold intToString at hc
  split at hc
  · rcases List.mem_cons.mp hc with h | h
    · subst h; decide
    · exact not_isspace_of_isdigit (isdigit_of_mem_natDigits _ _ c h)
  · exact not_isspace_of_isdigit (isdigit_of_mem_natDigits _ _ c hc)

theorem intToString_ne_nil (v : Int) : intToString v ≠ [] := by
  unfold intToString
  split
  · simp
  · exact natDigits_ne_nil _ _

/-- A name without white space, one space and the decimal text of an `int`
split into exactly these two tokens. -/
theorem split_name_value (name : List Char) (v : Int)
    (hname : ∀ c ∈ name, isspace c = false) :
    split (name ++ ' ' :: intToString v) = [name, intToString v] := by
  cases hv : intToString v with
  | nil => exact absurd hv (intToString_ne_nil v)
  | cons d ds =>
    have hall : ∀ c ∈ d :: ds, isspace c = false := by
      rw [← hv]; exact intToString_no_space v
    rw [split_token_then name ' ' d ds hname (by decide) (hall d (List.mem_cons_self _ _)),
      split_of_no_space (d :: ds) hall]

/-! ## The round trips -/

theorem from_string_name_value (name : List Char) (v : Int)
    (hname : ∀ c ∈ name, isspace c = false) (hv : inRange v) :
    Command.from_string (name ++ ' ' :: intToString v) =
      (if name = "compute".toList then .ok .Compute
       else if name = "init".toList then .ok (.Init v)
       else if name = "add".toList then .ok (.Add v)
       else if name = "mul".toList then .ok (.Mul v)
       else if name = "div".toList then
         (if v = 0 then .error .DivisionByZero else .ok (.Div v))
       else .error .NotACommand) := by
  unfold Command.from_string
  rw [split_name_value name v hname]
  simp only [stoi_intToString v hv]

/-- C2: for every valid command `c` (`Init`, `Add`, `Mul` of any `int`, `Div` of
any non-zero `int`, `Compute`), `Command::from_string(to_string(c))` succeeds
and returns `c`. -/
theorem command_roundtrip (c : Command) (h : c.valid) :
    Command.from_string c.to_string = .ok c := by
  cases c with
  | Init v => exact from_string_name_value "init".toList v (by decide) h
  | Add v => exact from_string_name_value "add".toList v (by decide) h
  | Mul v => exact from_string_name_value "mul".toList v (by decide) h
  | Div v =>
    have := from_string_name_value "div".toList v (by decide) h.1
    simpa [h.2] using this
  | Compute => decide

theorem command_roundtrip_witness :
    Command.from_string (Command.Div (-2147483648)).to_string = .ok (.Div (-2147483648)) :=
  command_roundtrip (.Div (-2147483648)) ⟨by decide, by decide⟩

/-- C3: for every answer `a` whose value is an `int` (the least and the
greatest `int` included), `Answer::from_string(to_string(a))` succeeds and
returns an answer with the same value. -/
theorem answer_roundtrip (a : Answer) (h : inRange a.value) :
    Answer.from_string a.to_string = .ok a := by
  unfold Answer.from_string Answer.to_string
  have hs := split_name_value "answer".toList a.value (by decide)
  have hs2 : split ("answer ".toList ++ intToString a.value)
      = ["answer".toList, intToString a.value] := hs
  rw [hs2]
  simp only [stoi_intToString a.value h]
  simp

theorem answer_roundtrip_witness :
    Answer.from_string (Answer.to_string ⟨INT_MIN⟩) = .ok ⟨INT_MIN⟩
      ∧ Answer.from_string (Answer.to_string ⟨INT_MAX⟩) = .ok ⟨INT_MAX⟩ :=
  ⟨answer_roundtrip ⟨INT_MIN⟩ (by decide), answer_roundtrip ⟨INT_MAX⟩ (by decide)⟩

/-! ## The accumulator -/

theorem run_output_none (c : Command) (hc : c ≠ .Compute) (x a : Int) (o : Option Int)
    (h : c.run x = .ok (a, o)) : o = none := by
  cases c with
  | Init v => simp [Command.run] at h; exact h.2.symm
  | Add v =>
    simp only [Command.run] at h
    split at h <;> simp at h
    exact h.2.symm
  | Mul v =>
    simp only [Command.run] at h
    split at h <;> simp at h
    exact h.2.symm
  | Div v =>
    simp only [Command.run] at h
    split at h
    · simp at h
    · split at h <;> simp at h
      exact h.2.symm
  | Compute => exact absurd rfl hc

theorem tdiv_sign (x v : Int) : 0 ≤ Int.tdiv x v * (x * v) := by
  rcases Int.le_total 0 x with hx | hx <;> rcases Int.le_total 0 v with hv | hv
  · exact Int.mul_nonneg (Int.tdiv_nonneg hx hv) (Int.mul_nonneg hx hv)
  · have : 0 ≤ Int.tdiv x (-v) := Int.tdiv_nonneg hx (by omega)
    rw [Int.tdiv_neg] at this
    nlinarith [Int.mul_nonneg hx (show 0 ≤ -v by omega)]
  · have : 0 ≤ Int.tdiv (-x) v := Int.tdiv_nonneg (by omega) hv
    rw [Int.neg_tdiv] at this
    nlinarith [Int.mul_nonneg (show 0 ≤ -x by omega) hv]
  · have : 0 ≤ Int.tdiv (-x) (-v) := Int.tdiv_nonneg (by omega) (by omega)
    rw [Int.neg_tdiv, Int.tdiv_neg] at this
    nlinarith [Int.mul_nonneg (show 0 ≤ -x by omega) (show 0 ≤ -v by omega)]

/-- C4: `Command::run` on the commands other than `Div`: `Init(v)` sets the
accumulator to `v`, `Add(v)` to `x + v` and `Mul(v)` to `x * v` when that
result is an `int`, each without output; `Compute` returns the output `x` and
keeps the accumulator; no other command returns an output. -/
theorem run_transition_table :
    (∀ x v : Int, (Command.Init v).run x = .ok (v, none))
    ∧ (∀ x v : Int, inRange (x + v) → (Command.Add v).run x = .ok (x + v, none))
    ∧ (∀ x v : Int, inRange (x * v) → (Command.Mul v).run x = .ok (x * v, none))
    ∧ (∀ x : Int, Command.Compute.run x = .ok (x, some x))
    ∧ (∀ (c : Command) (x a r : Int), c.run x = .ok (a, some r) → c = .Compute) := by
  refine ⟨fun _ _ => rfl, ?_, ?_, fun _ => rfl, ?_⟩
  · intro x v h
    simp [Command.run, h]
  · intro x v h
    simp [Command.run, h]
  · intro c x a r h
    by_contra hc
    have := run_output_none c hc x a (some r) h
    simp at this

theorem run_transition_table_witness :
    (Command.Add (-2)).run 12 = .ok (10, none)
      ∧ (Command.Mul 8).run 10 = .ok (80, none)
      ∧ Command.Compute = Command.Compute :=
  ⟨run_transition_table.2.1 12 (-2) (by decide),
   run_transition_table.2.2.1 10 8 (by decide),
   run_transition_table.2.2.2.2 .Compute 5 5 5 rfl⟩

/-- C5: for a divisor `v` other than zero and a quotient that is an `int`,
`Command::run` on `Div(v)` sets the accumulator to the quotient of `x` by `v`
truncated toward zero (its magnitude is the integer quotient of the
magnitudes, its sign that of `x * v`) and returns no output; `Init(7)` then
`Div(2)` leaves 3, `Init(-7)` then `Div(2)` leaves -3, where flooring would
give -4. -/
theorem run_div_truncates :
    (∀ x v : Int, v ≠ 0 → inRange (Int.tdiv x v) →
      ∃ q : Int, (Command.Div v).run x = .ok (q, none)
        ∧ q.natAbs = x.natAbs / v.natAbs
        ∧ (0 ≤ x * v → 0 ≤ q) ∧ (x * v ≤ 0 → q ≤ 0))
    ∧ run_all [.Init 7, .Div 2] 0 = .ok 3
    ∧ run_all [.Init (-7), .Div 2] 0 = .ok (-3)
    ∧ run_all [.Init (-7), .Div 2] 0 ≠ .ok (Int.fdiv (-7) 2) := by
  refine ⟨?_, by decide, by decide, by decide⟩
  intro x v hv hr
  refine ⟨Int.tdiv x v, by simp [Command.run, hv, hr], Int.natAbs_tdiv x v, ?_, ?_⟩
  · intro h
    have hs := tdiv_sign x v
    have hn := Int.natAbs_tdiv x v
    rcases lt_or_eq_of_le h with h1 | h1
    · by_contra hq
      have hq2 : Int.tdiv x v < 0 := by omega
      nlinarith
    · have hx : x = 0 := by
        rcases Int.mul_eq_zero.mp h1.symm with h2 | h2
        · exact h2
        · exact absurd h2 hv
      subst hx
      simp
  · intro h
    have hs := tdiv_sign x v
    rcases lt_or_eq_of_le h with h1 | h1
    · by_contra hq
      have hq2 : 0 < Int.tdiv x v := by omega
      nlinarith
    · have hx : x = 0 := by
        rcases Int.mul_eq_zero.mp h1 with h2 | h2
        · exact h2
        · exact absurd h2 hv
      subst hx
      simp

theorem run_div_truncates_witness :
    ∃ q : Int, (Command.Div 5).run (-16) = .ok (q, none)
      ∧ q.natAbs = (-16 : Int).natAbs / (5 : Int).natAbs
      ∧ (0 ≤ (-16 : Int) * 5 → 0 ≤ q) ∧ ((-16 : Int) * 5 ≤ 0 → q ≤ 0) :=
  run_div_truncates.1 (-16) 5 (by decide) (by decide)

/-! ## The server session -/

theorem compute_loop_append (pre : List (List Char)) (cs : List Command)
    (rest : List (List Char)) (value N : Int)
    (hparse : pre.map Command.from_string = cs.map Except.ok)
    (hnc : Command.Compute ∉ cs) (hrun : run_all cs value = .ok N) :
    compute_loop (pre ++ rest) value = compute_loop rest N := by
  induction pre generalizing cs value with
  | nil =>
    cases cs with
    | nil =>
      simp only [run_all, Except.ok.injEq] at hrun
      subst hrun
      rfl
    | cons c cs => simp at hparse
  | cons line pre ih =>
    cases cs with
    | nil => simp at hparse
    | cons c cs =>
      simp only [List.map_cons, List.cons.injEq] at hparse
      have hc : c ≠ .Compute := fun h => hnc (h ▸ List.mem_cons_self _ _)
      have hcs : Command.Compute ∉ cs := fun h => hnc (List.mem_cons_of_mem _ h)
      simp only [List.cons_append, compute_loop, hparse.1]
      cases hr : c.run value with
      | error f => simp [run_all, hr] at hrun
      | ok p =>
        obtain ⟨a, o⟩ := p
        have ho : o = none := run_output_none c hc value a o hr
        subst ho
        simp only [run_all, hr] at hrun
        exact ih cs a hparse.2 hcs hrun

/-- A session that gets as far as its first `compute` line: when the lines
before it parse to the commands `cs` (none of them `Compute`) and
`Command::run` applies them in order to an accumulator that starts at 0 with
result `N`, the session writes exactly once, the bytes `answer `, the decimal
text of `N` and a newline, and returns `N`, whatever lines follow.  The three
sessions of the reference configuration write `answer 8`, `answer -3` and
`answer 1`, each with its newline. -/
theorem compute_answers :
    (∀ (pre : List (List Char)) (cs : List Command) (line : List Char)
        (post : List (List Char)) (N : Int),
      pre.map Command.from_string = cs.map Except.ok →
      Command.Compute ∉ cs →
      Command.from_string line = .ok .Compute →
      run_all cs 0 = .ok N →
      compute (pre ++ line :: post)
        = ⟨["answer ".toList ++ intToString N ++ [newline]], .returned N⟩)
    ∧ compute (["init 12", "add -2", "mul 8", "div 10", "compute"].map String.toList)
        = ⟨["answer 8\n".toList], .returned 8⟩
    ∧ compute (["init -5", "add 3", "mul 7", "add -1", "div 5", "compute"].map String.toList)
        = ⟨["answer -3\n".toList], .returned (-3)⟩
    ∧ compute (["init 0", "add 2", "mul -4", "add 9", "compute"].map String.toList)
        = ⟨["answer 1\n".toList], .returned 1⟩ := by
  refine ⟨?_, by decide, by decide, by decide⟩
  intro pre cs line post N hparse hnc hline hrun
  unfold compute
  rw [compute_loop_append pre cs (line :: post) 0 N hparse hnc hrun]
  simp [compute_loop, hline, Command.run, send, Answer.to_string, newline]

theorem compute_answers_witness :
    compute (["init 7", "div -2"].map String.toList
        ++ "compute".toList :: ["mul 3", "bogus"].map String.toList)
      = ⟨["answer ".toList ++ intToString (-3) ++ [newline]], .returned (-3)⟩ :=
  compute_answers.1 (["init 7", "div -2"].map String.toList) [.Init 7, .Div (-2)]
    "compute".toList (["mul 3", "bogus"].map String.toList) (-3)
    (by decide) (by decide) (by decide) (by decide)

/-- C1 fails on the code: every line of `init -2147483648`, `div -1`, `compute`
parses as a command, yet the session writes nothing and does not return: at
the second line `Command::run` divides the least `int` by -1, a quotient that
is no `int`. -/
theorem compute_faults_without_answer :
    (["init -2147483648", "div -1", "compute"].map
        (fun line => Command.from_string line.toList))
      = [.ok (.Init (-2147483648)), .ok (.Div (-1)), .ok .Compute]
    ∧ run_all [.Init (-2147483648), .Div (-1)] 0 = .error .signed_overflow
    ∧ (compute (["init -2147483648", "div -1", "compute"].map String.toList)).sent = []
    ∧ (compute (["init -2147483648", "div -1", "compute"].map String.toList)).ending
        = .fault .signed_overflow := by
  decide

/-! ## Parse errors -/

theorem from_string_ne_div_zero (s : List Char) :
    Command.from_string s ≠ .ok (.Div 0) := by
  intro h
  unfold Command.from_string at h
  repeat' split at h
  all_goals simp_all

/-- C6: an input whose first token is `div` and whose operand reads as the
integer 0 is rejected with `DivisionByZero` (so is `"div 0"`), and
`Command::from_string` returns a `Div` of value 0 for no input. -/
theorem div_zero_rejected :
    (∀ (s value_str : List Char) (rest : List (List Char)),
      split s = "div".toList :: value_str :: rest → stoi value_str = .ok 0 →
      Command.from_string s = .error .DivisionByZero)
    ∧ Command.from_string "div 0".toList = .error .DivisionByZero
    ∧ (∀ s : List Char, Command.from_string s ≠ .ok (.Div 0)) := by
  refine ⟨?_, by decide, from_string_ne_div_zero⟩
  intro s value_str rest hs hv
  unfold Command.from_string
  rw [hs]
  simp only [hv]
  decide

theorem div_zero_rejected_witness :
    Command.from_string "div  -0 7".toList = .error .DivisionByZero :=
  div_zero_rejected.1 "div  -0 7".toList "-0".toList ["7".toList] (by decide) (by decide)

theorem run_never_divides_by_zero (s : List Char) (c : Command) (x : Int)
    (h : Command.from_string s = .ok c) : c.run x ≠ .error .divide_by_zero := by
  cases c with
  | Init v => simp [Command.run]
  | Add v => simp only [Command.run]; split <;> simp
  | Mul v => simp only [Command.run]; split <;> simp
  | Div v =>
    have hv : v ≠ 0 := by
      intro h0
      subst h0
      exact from_string_ne_div_zero s h
    simp only [Command.run, hv, if_false]
    split <;> simp
  | Compute => simp [Command.run]

/-- C7 fails on the code: `Command::from_string` returns `Init` of the least
`int` and `Div(-1)`, and `Command::run` on `Div(-1)` with the accumulator at
the least `int` divides the least `int` by -1, a quotient that is no `int`;
the session of these well-framed, well-parsed lines ends in that fault
without an answer. -/
theorem run_min_div_neg_one_faults :
    Command.from_string "init -2147483648".toList = .ok (.Init INT_MIN)
    ∧ Command.from_string "div -1".toList = .ok (.Div (-1))
    ∧ inRange INT_MIN
    ∧ (Command.Div (-1)).run INT_MIN = .error .signed_overflow
    ∧ compute (["init -2147483648", "div -1", "compute"].map String.toList)
        = ⟨[], .fault .signed_overflow⟩ := by
  decide

/-- C8 fails on the code: the split of the empty string is the single empty
token, so the test for no token at all is never met and
`Command::from_string("")` returns `MissingValue`, not `NotACommand`. -/
theorem from_string_empty :
    split [] = [[]]
    ∧ Command.from_string "".toList = .error .MissingValue
    ∧ Command.from_string "".toList ≠ .error .NotACommand := by
  decide

/-- C9 fails on the code: the operand is looked at before the name is
matched, so an unknown name alone gives `MissingValue`, with a non-integer
operand `InvalidValue`, with an operand out of range `ValueOutOfRange`, and
`NotACommand` only with an operand that reads as an `int`; the sibling
`Answer::from_string` does reject an unknown name first. -/
theorem unknown_name_errors :
    Command.from_string "foo".toList = .error .MissingValue
    ∧ Command.from_string "foo x".toList = .error .InvalidValue
    ∧ Command.from_string "foo 99999999999".toList = .error .ValueOutOfRange
    ∧ Command.from_string "foo 1".toList = .error .NotACommand
    ∧ Answer.from_string "foo".toList = .error .NotAnAnswer
    ∧ Answer.from_string "foo x".toList = .error .NotAnAnswer := by
  decide

theorem from_string_unknown_name (s name value_str : List Char) (rest : List (List Char))
    (n : Int) (hs : split s = name :: value_str :: rest) (hv : stoi value_str = .ok n)
    (hname : name ∉ ["init".toList, "add".toList, "mul".toList, "div".toList,
      "compute".toList]) :
    Command.from_string s = .error .NotACommand := by
  simp only [List.mem_cons, List.mem_singleton, List.not_mem_nil, or_false, not_or] at hname
  obtain ⟨h1, h2, h3, h4, h5⟩ := hname
  unfold Command.from_string
  rw [hs]
  simp only [hv]
  rw [if_neg h5, if_neg h1, if_neg h2, if_neg h3, if_neg h4]

theorem from_string_single_token (s : List Char) (h : ∀ c ∈ s, isspace c = false)
    (hs : s ≠ "compute".toList) : Command.from_string s = .error .MissingValue := by
  unfold Command.from_string
  rw [split_of_no_space s h]
  show (if s = "compute".toList then _ else _) = _
  rw [if_neg hs]

/-- C10: an input that is one of the names `init`, `add`, `mul`, `div` with
no second token gives `MissingValue` from `Command::from_string`, and the
input `answer` with no second token gives `MissingValue` from
`Answer::from_string`. -/
theorem missing_value :
    (∀ s : List Char, s ∈ ["init".toList, "add".toList, "mul".toList, "div".toList] →
      Command.from_string s = .error .MissingValue)
    ∧ (∀ s name : List Char, split s = [name] →
        name ∈ ["init".toList, "add".toList, "mul".toList, "div".toList] →
        Command.from_string s = .error .MissingValue)
    ∧ Answer.from_string "answer".toList = .error .MissingValue
    ∧ (∀ s : List Char, split s = ["answer".toList] →
        Answer.from_string s = .error .MissingValue) := by
  refine ⟨?_, ?_, by decide, ?_⟩
  · intro s hs
    simp only [List.mem_cons, List.mem_singleton, List.not_mem_nil, or_false] at hs
    rcases hs with h | h | h | h <;> subst h <;> decide
  · intro s name hs hname
    unfold Command.from_string
    rw [hs]
    simp only [List.mem_cons, List.mem_singleton, List.not_mem_nil, or_false] at hname
    rcases hname with h | h | h | h <;> subst h <;> decide
  · intro s hs
    unfold Answer.from_string
    rw [hs]
    decide

theorem missing_value_witness :
    Command.from_string "add".toList = .error .MissingValue
      ∧ Command.from_string "div".toList = .error .MissingValue
      ∧ Answer.from_string "answer".toList = .error .MissingValue :=
  ⟨missing_value.1 "add".toList (by decide),
   missing_value.2.1 "div".toList "div".toList (by decide) (by decide),
   missing_value.2.2.2 "answer".toList (by decide)⟩

/-! ## The error category -/

/-- C18 fails on the code: `default_error_condition` maps `ValueOutOfRange` to
`std::errc::result_out_of_range`, not to `std::errc::invalid_argument`. -/
theorem value_out_of_range_condition :
    ComputeErrorCategory.default_error_condition ComputeError.ValueOutOfRange.code
        = .generic .result_out_of_range
    ∧ ComputeErrorCategory.default_error_condition ComputeError.ValueOutOfRange.code
        ≠ .generic .invalid_argument := by
  decide

/-- C18 as amended: `default_error_condition` maps `NotACommand`, `NotAnAnswer`,
`MissingValue`, `InvalidValue` and `DivisionByZero` to
`std::errc::invalid_argument`, and `ValueOutOfRange` to
`std::errc::result_out_of_range`. -/
theorem default_error_condition_table (e : ComputeError) :
    ComputeErrorCategory.default_error_condition e.code =
      (if e = .ValueOutOfRange then .generic .result_out_of_range
       else .generic .invalid_argument) := by
  cases e <;> decide

/-! ## Tokens -/

theorem split_no_space (s : List Char) : ∀ t ∈ split s, ∀ c ∈ t, isspace c = false := by
  induction s with
  | nil =>
    intro t ht c hc
    simp only [split, List.mem_singleton] at ht
    subst ht
    simp at hc
  | cons a cs ih =>
    intro t ht c hc
    unfold split at ht
    cases hs : split cs with
    | nil => exact absurd hs (split_ne_nil cs)
    | cons t0 ts =>
      rw [hs] at ih ht
      simp only at ht
      by_cases ha : isspace a = true
      · simp only [ha, if_true] at ht
        cases cs with
        | nil =>
          simp only [List.mem_cons, List.mem_singleton, List.not_mem_nil, or_false, or_self] at ht
          subst ht
          simp at hc
        | cons d ds =>
          simp only at ht
          by_cases hd : isspace d = true
          · simp only [hd, if_true] at ht
            exact ih t ht c hc
          · simp only [hd] at ht
            rcases List.mem_cons.mp ht with h | h
            · subst h
              simp at hc
            · exact ih t h c hc
      · simp only [ha] at ht
        rcases List.mem_cons.mp ht with h | h
        · subst h
          rcases List.mem_cons.mp hc with h2 | h2
          · subst h2
            simpa using ha
          · exact ih t0 (List.mem_cons_self _ _) c h2
        · exact ih t (List.mem_cons_of_mem _ h) c hc

/-- The first token is the text before the first white space character. -/
theorem split_head (s : List Char) :
    (split s).head? = some (s.takeWhile (fun c => !isspace c)) := by
  induction s with
  | nil => rfl
  | cons a cs ih =>
    unfold split
    cases hs : split cs with
    | nil => exact absurd hs (split_ne_nil cs)
    | cons t0 ts =>
      rw [hs] at ih
      simp only [List.head?_cons, Option.some.injEq] at ih
      by_cases ha : isspace a = true
      · simp only [ha, if_true, List.takeWhile_cons, Bool.not_true]
        cases cs with
        | nil => rfl
        | cons d ds =>
          by_cases hd : isspace d = true
          · simp only [hd, if_true, List.head?_cons]
            simp only [List.takeWhile_cons, hd, Bool.not_true] at ih
            simp [ih]
          · simp [hd]
      · simp only [ha, List.takeWhile_cons]
        simp [ih]

theorem answer_from_string_of_head (s : List Char)
    (h : (split s).head? ≠ some "answer".toList) :
    Answer.from_string s = .error .NotAnAnswer := by
  unfold Answer.from_string
  cases hs : split s with
  | nil => exact absurd hs (split_ne_nil s)
  | cons name rest =>
    rw [hs] at h
    have hname : name ≠ "answer".toList := by
      intro hh
      exact h (by rw [hh]; rfl)
    simp only [ne_eq, hname, not_false_eq_true, if_true]

/-- C14: `Answer::from_string` returns `NotAnAnswer` for the empty input and
for every input whose leading token is not `answer` (the first token of the
split, and so also the first run of characters other than white space); it
returns `NotACommand` for no input. -/
theorem not_an_answer :
    Answer.from_string [] = .error .NotAnAnswer
    ∧ (∀ s : List Char, (split s).head? ≠ some "answer".toList →
        Answer.from_string s = .error .NotAnAnswer)
    ∧ (∀ s : List Char,
        (s.dropWhile isspace).takeWhile (fun c => !isspace c) ≠ "answer".toList →
        Answer.from_string s = .error .NotAnAnswer)
    ∧ (∀ s : List Char, Answer.from_string s ≠ .error .NotACommand) := by
  refine ⟨by decide, answer_from_string_of_head, ?_, ?_⟩
  · intro s h
    apply answer_from_string_of_head
    rw [split_head]
    cases s with
    | nil => decide
    | cons a cs =>
      by_cases ha : isspace a = true
      · have hnil : (a :: cs).takeWhile (fun c => !isspace c) = [] := by
          simp [List.takeWhile_cons, ha]
        rw [hnil]
        decide
      · have hd : (a :: cs).dropWhile isspace = a :: cs := by
          simp [List.dropWhile_cons, ha]
        rw [hd] at h
        intro hh
        exact h (Option.some.inj hh)
  · intro s h
    unfold Answer.from_string at h
    cases hs : split s with
    | nil => exact absurd hs (split_ne_nil s)
    | cons name rest =>
      rw [hs] at h
      simp only at h
      repeat' split at h
      all_goals simp_all

theorem not_an_answer_witness :
    Answer.from_string "init 3".toList = .error .NotAnAnswer
      ∧ Answer.from_string "answers 3".toList = .error .NotAnAnswer
      ∧ Answer.from_string "\tcompute".toList = .error .NotAnAnswer :=
  ⟨not_an_answer.2.1 "init 3".toList (by decide),
   not_an_answer.2.1 "answers 3".toList (by decide),
   not_an_answer.2.2.1 "\tcompute".toList (by decide)⟩

/-! ## Operands -/

theorem stoiDigits_of_all (negative : Bool) (ds : List Char)
    (hall : ∀ c ∈ ds, isdigit c = true) (hne : ds ≠ []) :
    stoiDigits negative ds =
      (let n : Int := if negative then -(digitsValue ds : Int) else (digitsValue ds : Int)
       if inRange n then .ok n else .error .out_of_range) := by
  unfold stoiDigits
  simp only [takeWhile_eq_self_of_all ds hall, hne, if_false]

theorem stoiDigits_invalid_iff (negative : Bool) (s : List Char) :
    stoiDigits negative s = .error .invalid_argument ↔
      (match s with
       | [] => True
       | d :: _ => isdigit d = false) := by
  cases s with
  | nil => simp [stoiDigits]
  | cons d ds =>
    by_cases hd : isdigit d = true
    · have hne : (d :: ds).takeWhile isdigit ≠ [] := by
        simp [List.takeWhile_cons, hd]
      simp only [stoiDigits, hne, if_false, hd]
      constructor
      · intro h
        repeat' split at h
        all_goals simp at h
      · intro h
        simp at h
    · have hnil : (d :: ds).takeWhile isdigit = [] := by
        simp [List.takeWhile_cons, hd]
      simp only [stoiDigits, hnil, if_true]
      simpa using hd

theorem dropWhile_isspace_of_no_space (v : List Char) (hv : ∀ c ∈ v, isspace c = false) :
    v.dropWhile isspace = v := by
  cases v with
  | nil => rfl
  | cons c cs => simp [List.dropWhile_cons, hv c (List.mem_cons_self _ _)]

/-- The only tokens `std::stoi` refuses with `std::invalid_argument` are those
that do not begin with an optional sign and a digit. -/
theorem stoi_invalid_iff (v : List Char) (hv : ∀ c ∈ v, isspace c = false) :
    stoi v = .error .invalid_argument ↔ startsDecimalInt v = false := by
  unfold stoi
  rw [dropWhile_isspace_of_no_space v hv]
  cases v with
  | nil => simp [startsDecimalInt, unsigned]
  | cons c cs =>
    by_cases h1 : c = '-'
    · subst h1
      simp only [if_true, startsDecimalInt, unsigned, true_or]
      rw [stoiDigits_invalid_iff]
      cases cs <;> simp
    · by_cases h2 : c = '+'
      · subst h2
        simp only [h1, if_false, if_true, startsDecimalInt, unsigned, or_true]
        rw [stoiDigits_invalid_iff]
        cases cs <;> simp
      · simp only [h1, h2, if_false, startsDecimalInt, unsigned, or_self]
        rw [stoiDigits_invalid_iff]

/-- On a valid decimal signed integer `std::stoi` returns the number it
denotes when that is an `int`, and throws `std::out_of_range` otherwise. -/
theorem stoi_of_isDecimalInt (v : List Char) (h : isDecimalInt v = true) :
    stoi v = (if inRange (decimalValue v) then .ok (decimalValue v)
              else .error .out_of_range) := by
  simp only [isDecimalInt, Bool.and_eq_true, List.all_eq_true, Bool.not_eq_true',
    List.isEmpty_eq_false] at h
  obtain ⟨hall, hne⟩ := h
  cases v with
  | nil => simp [unsigned] at hne
  | cons c cs =>
    by_cases h1 : c = '-'
    · subst h1
      simp only [unsigned, true_or, if_true] at hall hne
      have hs : stoi ('-' :: cs) = stoiDigits true cs := by
        simp [stoi, isspace]
      rw [hs, stoiDigits_of_all true cs hall hne]
      simp [decimalValue]
    · by_cases h2 : c = '+'
      · subst h2
        simp only [unsigned, or_true, if_true] at hall hne
        have hs : stoi ('+' :: cs) = stoiDigits false cs := by
          simp [stoi, isspace]
        rw [hs, stoiDigits_of_all false cs hall hne]
        simp [decimalValue, unsigned]
      · simp only [unsigned, h1, h2, or_self, if_false] at hall hne
        have hc : isdigit c = true := hall c (List.mem_cons_self _ _)
        have hsp : isspace c = false := not_isspace_of_isdigit hc
        have hs : stoi (c :: cs) = stoiDigits false (c :: cs) := by
          simp [stoi, hsp, h1, h2]
        rw [hs, stoiDigits_of_all false (c :: cs) hall hne]
        simp [decimalValue, unsigned, h1, h2]

theorem takeWhile_append_junk (ds junk : List Char) (hall : ∀ c ∈ ds, isdigit c = true)
    (hjunk : ∀ d ∈ junk.head?, isdigit d = false) :
    (ds ++ junk).takeWhile isdigit = ds := by
  induction ds with
  | nil =>
    cases junk with
    | nil => rfl
    | cons d js =>
      have hd : isdigit d = false := hjunk d (by simp)
      simp [List.takeWhile_cons, hd]
  | cons a ds ih =>
    have ha : isdigit a = true := hall a (List.mem_cons_self _ _)
    simp only [List.cons_append, List.takeWhile_cons, ha, if_true]
    rw [ih (fun c hc => hall c (List.mem_cons_of_mem _ hc))]

theorem stoiDigits_append_junk (negative : Bool) (ds junk : List Char)
    (hall : ∀ c ∈ ds, isdigit c = true) (hjunk : ∀ d ∈ junk.head?, isdigit d = false) :
    stoiDigits negative (ds ++ junk) = stoiDigits negative ds := by
  unfold stoiDigits
  rw [takeWhile_append_junk ds junk hall hjunk, takeWhile_eq_self_of_all ds hall]

/-- What follows the digits of an operand is ignored by `std::stoi`. -/
theorem stoi_append_junk (p junk : List Char) (h : isDecimalInt p = true)
    (hjunk : ∀ d ∈ junk.head?, isdigit d = false) : stoi (p ++ junk) = stoi p := by
  simp only [isDecimalInt, Bool.and_eq_true, List.all_eq_true, Bool.not_eq_true',
    List.isEmpty_eq_false] at h
  obtain ⟨hall, hne⟩ := h
  cases p with
  | nil => simp [unsigned] at hne
  | cons c cs =>
    by_cases h1 : c = '-'
    · subst h1
      simp only [unsigned, true_or, if_true] at hall
      have e1 : stoi ('-' :: cs ++ junk) = stoiDigits true (cs ++ junk) := by
        simp [stoi, isspace]
      have e2 : stoi ('-' :: cs) = stoiDigits true cs := by
        simp [stoi, isspace]
      rw [e1, e2, stoiDigits_append_junk true cs junk hall hjunk]
    · by_cases h2 : c = '+'
      · subst h2
        simp only [unsigned, or_true, if_true] at hall
        have e1 : stoi ('+' :: cs ++ junk) = stoiDigits false (cs ++ junk) := by
          simp [stoi, isspace]
        have e2 : stoi ('+' :: cs) = stoiDigits false cs := by
          simp [stoi, isspace]
        rw [e1, e2, stoiDigits_append_junk false cs junk hall hjunk]
      · simp only [unsigned, h1, h2, or_self, if_false] at hall
        have hc : isdigit c = true := hall c (List.mem_cons_self _ _)
        have hsp : isspace c = false := not_isspace_of_isdigit hc
        have e1 : stoi (c :: cs ++ junk) = stoiDigits false ((c :: cs) ++ junk) := by
          simp [stoi, hsp, h1, h2]
        have e2 : stoi (c :: cs) = stoiDigits false (c :: cs) := by
          simp [stoi, hsp, h1, h2]
        rw [e1, e2, stoiDigits_append_junk false (c :: cs) junk hall hjunk]

/-- C11 fails on the code: `12abc` and `1.5` are not valid decimal signed
integers, yet `"add 12abc"` parses to `Add(12)` and `"add 1.5"` to `Add(1)`. -/
theorem invalid_value_trailing_characters :
    isDecimalInt "12abc".toList = false
    ∧ Command.from_string "add 12abc".toList = .ok (.Add 12)
    ∧ isDecimalInt "1.5".toList = false
    ∧ Command.from_string "add 1.5".toList = .ok (.Add 1) := by
  decide

/-- C11 as amended: for an input whose first token is one of `init`, `add`,
`mul`, `div`, `Command::from_string` returns `InvalidValue` exactly when the
second token does not begin with an optional sign followed by a decimal digit
(so for `"add x"`); a valid decimal signed integer followed by characters that
are no digits is read as that integer. -/
theorem invalid_value :
    (∀ (s name value_str : List Char) (rest : List (List Char)),
      split s = name :: value_str :: rest →
      name ∈ ["init".toList, "add".toList, "mul".toList, "div".toList] →
      (Command.from_string s = .error .InvalidValue ↔ startsDecimalInt value_str = false))
    ∧ Command.from_string "add x".toList = .error .InvalidValue
    ∧ (∀ p junk : List Char, isDecimalInt p = true → (∀ d ∈ junk.head?, isdigit d = false) →
        stoi (p ++ junk) = stoi p) := by
  refine ⟨?_, by decide, stoi_append_junk⟩
  intro s name value_str rest hs hname
  have hv : ∀ c ∈ value_str, isspace c = false :=
    split_no_space s value_str (by rw [hs]; simp)
  rw [← stoi_invalid_iff value_str hv]
  have hc : name ≠ "compute".toList := by
    intro hh
    subst hh
    revert hname
    decide
  unfold Command.from_string
  rw [hs]
  simp only [hc, if_false]
  constructor
  · intro h
    repeat' split at h
    all_goals simp_all
  · intro h
    simp only [h]

theorem invalid_value_witness :
    (Command.from_string "mul -".toList = .error .InvalidValue
        ↔ startsDecimalInt "-".toList = false)
      ∧ stoi ("-12".toList ++ "abc".toList) = stoi "-12".toList :=
  ⟨invalid_value.1 "mul -".toList "mul".toList "-".toList [] (by decide) (by decide),
   invalid_value.2.2 "-12".toList "abc".toList (by decide) (by decide)⟩

/-- C12: for an input whose first token is one of `init`, `add`, `mul`, `div`
and whose second token is a valid decimal signed integer that denotes a number
outside the range of `int`, `Command::from_string` returns `ValueOutOfRange`;
so does `Answer::from_string` after the token `answer`. -/
theorem value_out_of_range :
    (∀ (s name value_str : List Char) (rest : List (List Char)),
      split s = name :: value_str :: rest →
      name ∈ ["init".toList, "add".toList, "mul".toList, "div".toList] →
      isDecimalInt value_str = true → ¬ inRange (decimalValue value_str) →
      Command.from_string s = .error .ValueOutOfRange)
    ∧ (∀ (s value_str : List Char) (rest : List (List Char)),
      split s = "answer".toList :: value_str :: rest →
      isDecimalInt value_str = true → ¬ inRange (decimalValue value_str) →
      Answer.from_string s = .error .ValueOutOfRange) := by
  constructor
  · intro s name value_str rest hs hname hint hrange
    have hc : name ≠ "compute".toList := by
      intro hh
      subst hh
      revert hname
      decide
    unfold Command.from_string
    rw [hs]
    simp only [hc, if_false, stoi_of_isDecimalInt value_str hint, hrange]
  · intro s value_str rest hs hint hrange
    unfold Answer.from_string
    rw [hs]
    simp only [stoi_of_isDecimalInt value_str hint, hrange, if_false]
    decide

theorem value_out_of_range_witness :
    Command.from_string "init 2147483648".toList = .error .ValueOutOfRange
      ∧ Answer.from_string "answer -2147483649".toList = .error .ValueOutOfRange :=
  ⟨value_out_of_range.1 "init 2147483648".toList "init".toList "2147483648".toList []
      (by decide) (by decide) (by decide) (by decide),
   value_out_of_range.2 "answer -2147483649".toList "-2147483649".toList []
      (by decide) (by decide) (by decide)⟩

/-! ## Sessions that fail, and `Init` -/

theorem run_all_append (cs ds : List Command) (s a : Int) (h : run_all cs s = .ok a) :
    run_all (cs ++ ds) s = run_all ds a := by
  induction cs generalizing s with
  | nil =>
    simp only [run_all, Except.ok.injEq] at h
    subst h
    rfl
  | cons c cs ih =>
    simp only [List.cons_append, run_all] at h ⊢
    cases hr : c.run s with
    | error f => simp [hr] at h
    | ok p =>
      obtain ⟨x, o⟩ := p
      simp only [hr] at h ⊢
      exact ih x h

/-- C20 fails on the code: `Div(-1)` is no `Compute` and its divisor is not
zero, yet from the least `int` applying `Div(-1)` then `Init(5)` leaves no
accumulator value (`Command::run` divides the least `int` by -1, a quotient
that is no `int`), while applying nothing from 5 leaves 5. -/
theorem init_after_fault :
    run_all ([Command.Div (-1)] ++ Command.Init 5 :: []) INT_MIN = .error .signed_overflow
    ∧ run_all [] 5 = .ok 5
    ∧ run_all ([Command.Div (-1)] ++ Command.Init 5 :: []) INT_MIN ≠ run_all [] 5 := by
  decide

/-- Where `Init` does discard the history: when applying `cs` from `s` with
`Command::run` leaves an
accumulator value (no division by zero and no result outside `int`), applying
`cs`, then `Init(v)`, then `ds` from `s` gives what applying `ds` from `v`
gives; and a session that receives a line parsing to `Init(v)` after such
lines goes on as the loop started at `v` does on the lines that follow. -/
theorem init_discards_history :
    (∀ (s v a : Int) (cs ds : List Command), run_all cs s = .ok a →
      run_all (cs ++ Command.Init v :: ds) s = run_all ds v)
    ∧ (∀ (pre : List (List Char)) (cs : List Command) (line : List Char)
        (rest : List (List Char)) (v a : Int),
      pre.map Command.from_string = cs.map Except.ok →
      Command.Compute ∉ cs →
      run_all cs 0 = .ok a →
      Command.from_string line = .ok (.Init v) →
      compute (pre ++ line :: rest) = compute_loop rest v) := by
  constructor
  · intro s v a cs ds h
    rw [run_all_append cs _ s a h]
    rfl
  · intro pre cs line rest v a hparse hnc hrun hline
    unfold compute
    rw [compute_loop_append pre cs (line :: rest) 0 a hparse hnc hrun]
    simp [compute_loop, hline, Command.run]

theorem init_discards_history_witness :
    run_all ([Command.Add 3, Command.Mul 7] ++ Command.Init 12 :: [Command.Div 5]) 1
        = run_all [Command.Div 5] 12
      ∧ compute (["add 3", "mul 7"].map String.toList
          ++ "init 12".toList :: ["div 5", "compute"].map String.toList)
        = compute_loop (["div 5", "compute"].map String.toList) 12 :=
  ⟨init_discards_history.1 1 12 28 [.Add 3, .Mul 7] [.Div 5] (by decide),
   init_discards_history.2 (["add 3", "mul 7"].map String.toList) [.Add 3, .Mul 7]
     "init 12".toList (["div 5", "compute"].map String.toList) 12 21
     (by decide) (by decide) (by decide) (by decide)⟩

theorem compute_loop_sent_nil (pre : List (List Char)) (cs : List Command)
    (bad : List Char) (post : List (List Char)) (e : ComputeError) (value : Int)
    (hparse : pre.map Command.from_string = cs.map Except.ok)
    (hnc : Command.Compute ∉ cs) (hbad : Command.from_string bad = .error e) :
    (compute_loop (pre ++ bad :: post) value).sent = [] := by
  induction pre generalizing cs value with
  | nil => simp [compute_loop, hbad]
  | cons line pre ih =>
    cases cs with
    | nil => simp at hparse
    | cons c cs =>
      simp only [List.map_cons, List.cons.injEq] at hparse
      have hc : c ≠ .Compute := fun h => hnc (h ▸ List.mem_cons_self _ _)
      have hcs : Command.Compute ∉ cs := fun h => hnc (List.mem_cons_of_mem _ h)
      simp only [List.cons_append, compute_loop, hparse.1]
      cases hr : c.run value with
      | error f => rfl
      | ok p =>
        obtain ⟨a, o⟩ := p
        have ho : o = none := run_output_none c hc value a o hr
        subst ho
        exact ih cs a hparse.2 hcs

/-- A session that gets as far as a line that fails to parse: when the lines
received before it
parsed to commands other than `Compute` (applied with `Command::run`), the
session ends with the parse error of that line as its result, has sent
nothing, and the lines after it play no part; nothing is sent either when the
session does not get as far as the bad line. -/
theorem compute_fails :
    (∀ (pre : List (List Char)) (cs : List Command) (bad : List Char)
        (post : List (List Char)) (e : ComputeError) (a : Int),
      pre.map Command.from_string = cs.map Except.ok →
      Command.Compute ∉ cs →
      run_all cs 0 = .ok a →
      Command.from_string bad = .error e →
      compute (pre ++ bad :: post) = ⟨[], .failed e⟩)
    ∧ (∀ (pre : List (List Char)) (cs : List Command) (bad : List Char)
        (post : List (List Char)) (e : ComputeError),
      pre.map Command.from_string = cs.map Except.ok →
      Command.Compute ∉ cs →
      Command.from_string bad = .error e →
      (compute (pre ++ bad :: post)).sent = []) := by
  constructor
  · intro pre cs bad post e a hparse hnc hrun hbad
    unfold compute
    rw [compute_loop_append pre cs (bad :: post) 0 a hparse hnc hrun]
    simp [compute_loop, hbad]
  · intro pre cs bad post e hparse hnc hbad
    exact compute_loop_sent_nil pre cs bad post e 0 hparse hnc hbad

theorem compute_fails_witness :
    compute (["init 4", "mul 5"].map String.toList
        ++ "div 0".toList :: ["add 1", "compute"].map String.toList)
      = ⟨[], .failed .DivisionByZero⟩
    ∧ (compute (["init 4", "mul 5"].map String.toList
        ++ "sub 1".toList :: ["compute"].map String.toList)).sent = [] :=
  ⟨compute_fails.1 (["init 4", "mul 5"].map String.toList) [.Init 4, .Mul 5]
     "div 0".toList (["add 1", "compute"].map String.toList) .DivisionByZero 20
     (by decide) (by decide) (by decide) (by decide),
   compute_fails.2 (["init 4", "mul 5"].map String.toList) [.Init 4, .Mul 5]
     "sub 1".toList (["compute"].map String.toList) .NotACommand
     (by decide) (by decide) (by decide)⟩

/-- C17 fails on the code: of the lines `init -2147483648`, `div -1`, `bogus`
the first two parse and the third fails to parse with `MissingValue` before
any `compute` line, yet the session does not end with that parse error: at the
second line `Command::run` divides the least `int` by -1, a quotient that is
no `int`, and the session ends there. -/
theorem compute_faults_before_parse_error :
    Command.from_string "init -2147483648".toList = .ok (.Init (-2147483648))
    ∧ Command.from_string "div -1".toList = .ok (.Div (-1))
    ∧ Command.from_string "bogus".toList = .error .MissingValue
    ∧ compute (["init -2147483648", "div -1", "bogus"].map String.toList)
        = ⟨[], .fault .signed_overflow⟩
    ∧ compute (["init -2147483648", "div -1", "bogus"].map String.toList)
        ≠ ⟨[], .failed .MissingValue⟩ := by
  decide

/-! ## Framing -/

theorem find_delim_none (l : List Char) (h : newline ∉ l) : find_delim l = none := by
  induction l with
  | nil => rfl
  | cons c cs ih =>
    have hc : c ≠ newline := fun hh => h (hh ▸ List.mem_cons_self _ _)
    have hcs : newline ∉ cs := fun hh => h (List.mem_cons_of_mem _ hh)
    simp [find_delim, hc, ih hcs]

theorem find_delim_append (m rest : List Char) (h : newline ∉ m) :
    find_delim (m ++ newline :: rest) = some m.length := by
  induction m with
  | nil => simp [find_delim]
  | cons c cs ih =>
    have hc : c ≠ newline := fun hh => h (hh ▸ List.mem_cons_self _ _)
    have hcs : newline ∉ cs := fun hh => h (List.mem_cons_of_mem _ hh)
    simp [find_delim, hc, ih hcs]

theorem find_delim_take (m rest : List Char) (n : Nat) (h : newline ∉ m)
    (hlen : m.length < n) : find_delim ((m ++ newline :: rest).take n) = some m.length := by
  have e : (m ++ newline :: rest).take n
      = m ++ newline :: rest.take (n - m.length - 1) := by
    rw [List.take_append_eq_append_take]
    have h1 : m.take n = m := List.take_of_length_le (by omega)
    obtain ⟨k, hk⟩ : ∃ k, n - m.length = k + 1 := ⟨n - m.length - 1, by omega⟩
    rw [h1, hk, List.take_succ_cons]
    simp
  rw [e, find_delim_append m _ h]

/-- A buffer that holds a whole message is not read into: the call completes
with the size of the message and its delimiter. -/
theorem async_read_until_buffered (max_size : Nat) (socket : List (List Char))
    (m rest : List Char) (h : newline ∉ m) (hlen : m.length < max_size) :
    async_read_until max_size socket (m ++ newline :: rest)
      = .ok (m.length + 1, ⟨socket, m ++ newline :: rest⟩) := by
  cases socket <;> simp [async_read_until, find_delim_take m rest max_size h hlen]

theorem take_message (m rest : List Char) :
    (m ++ newline :: rest).take (m.length + 1 - 1) = m := by
  simp

theorem drop_message (m rest : List Char) :
    (m ++ newline :: rest).drop (m.length + 1) = rest := by
  have e : m ++ newline :: rest = (m ++ [newline]) ++ rest := by simp
  rw [e, List.drop_append_of_le_length (by simp)]
  simp

theorem receive_next_buffered {T : Type} (from_string : List Char → Except ComputeError T)
    (socket : List (List Char)) (m rest : List Char) (h : newline ∉ m)
    (hlen : m.length < 256) :
    Receive.next from_string ⟨socket, m ++ newline :: rest⟩
      = .ok (from_string m, ⟨socket, rest⟩) := by
  unfold Receive.next
  simp only [async_read_until_buffered 256 socket m rest h hlen, take_message, drop_message]

theorem async_read_until_nil (max_size : Nat) (buffer : List Char) :
    async_read_until max_size [] buffer =
      (match find_delim (buffer.take max_size) with
       | some i => .ok (i + 1, ⟨[], buffer⟩)
       | none => if max_size ≤ buffer.length then .error .not_found else .error .eof) := by
  rfl

theorem async_read_until_cons (max_size : Nat) (chunk : List Char)
    (later : List (List Char)) (buffer : List Char) :
    async_read_until max_size (chunk :: later) buffer =
      (match find_delim (buffer.take max_size) with
       | some i => .ok (i + 1, ⟨chunk :: later, buffer⟩)
       | none =>
         if max_size ≤ buffer.length then .error .not_found
         else if chunk = [] then .error .eof
         else if chunk.length ≤ max_size - buffer.length then
           async_read_until max_size later (buffer ++ chunk)
         else
           match find_delim (buffer ++ chunk.take (max_size - buffer.length)) with
           | some i => .ok (i + 1, ⟨chunk.drop (max_size - buffer.length) :: later,
               buffer ++ chunk.take (max_size - buffer.length)⟩)
           | none => .error .not_found) := by
  rfl

theorem not_mem_take_left (buffer more : List Char) (n : Nat)
    (h : newline ∉ (buffer ++ more).take n) : newline ∉ buffer.take n := by
  intro hh
  apply h
  rw [List.take_append_eq_append_take]
  exact List.mem_append_left _ hh

theorem not_mem_filled (buffer chunk more : List Char) (n : Nat) (hlen : buffer.length < n)
    (h : newline ∉ (buffer ++ (chunk ++ more)).take n) :
    newline ∉ buffer ++ chunk.take (n - buffer.length) := by
  intro hh
  apply h
  rw [List.take_append_eq_append_take, List.take_of_length_le (Nat.le_of_lt hlen),
    List.take_append_eq_append_take]
  rcases List.mem_append.mp hh with h1 | h1
  · exact List.mem_append_left _ h1
  · exact List.mem_append_right _ (List.mem_append_left _ h1)

/-- A stream that fills the buffer without a delimiter: the call completes
with `not_found`. -/
theorem async_read_until_not_found (max_size : Nat) (socket : List (List Char))
    (buffer : List Char) (hchunks : ∀ chunk ∈ socket, chunk ≠ [])
    (hlen : max_size ≤ (buffer ++ socket.flatten).length)
    (hno : newline ∉ (buffer ++ socket.flatten).take max_size) :
    async_read_until max_size socket buffer = .error .not_found := by
  induction socket generalizing buffer with
  | nil =>
    simp only [List.flatten_nil, List.append_nil] at hlen hno
    simp [async_read_until, find_delim_none _ hno, hlen]
  | cons chunk later ih =>
    have hfind : find_delim (buffer.take max_size) = none :=
      find_delim_none _ (not_mem_take_left buffer _ max_size hno)
    have hchunk : chunk ≠ [] := hchunks chunk (List.mem_cons_self _ _)
    rw [async_read_until_cons]
    simp only [hfind]
    by_cases hfull : max_size ≤ buffer.length
    · simp [hfull]
    · simp only [hfull, if_false, hchunk]
      by_cases hfit : chunk.length ≤ max_size - buffer.length
      · simp only [hfit, if_true]
        apply ih (buffer ++ chunk) (fun c hc => hchunks c (List.mem_cons_of_mem _ hc))
        · simpa [List.append_assoc] using hlen
        · simpa [List.append_assoc] using hno
      · simp only [hfit, if_false]
        have hn : newline ∉ buffer ++ chunk.take (max_size - buffer.length) := by
          apply not_mem_filled buffer chunk later.flatten max_size (by omega)
          simpa using hno
        simp [find_delim_none _ hn]

/-- A stream that ends before the buffer is full and holds no delimiter: the
call completes with `eof`. -/
theorem async_read_until_eof (max_size : Nat) (socket : List (List Char))
    (buffer : List Char) (hlen : (buffer ++ socket.flatten).length < max_size)
    (hno : newline ∉ buffer ++ socket.flatten) :
    async_read_until max_size socket buffer = .error .eof := by
  induction socket generalizing buffer with
  | nil =>
    simp only [List.flatten_nil, List.append_nil] at hlen hno
    have hfind : find_delim (buffer.take max_size) = none := by
      rw [List.take_of_length_le (Nat.le_of_lt hlen)]
      exact find_delim_none _ hno
    have hfull : ¬ max_size ≤ buffer.length := by omega
    simp [async_read_until, hfind, hfull]
  | cons chunk later ih =>
    simp only [List.flatten_cons, List.length_append] at hlen
    have hb : newline ∉ buffer := fun hh => hno (List.mem_append_left _ hh)
    have hfind : find_delim (buffer.take max_size) = none := by
      rw [List.take_of_length_le (by omega)]
      exact find_delim_none _ hb
    have hfull : ¬ max_size ≤ buffer.length := by omega
    have hfit : chunk.length ≤ max_size - buffer.length := by omega
    rw [async_read_until_cons]
    simp only [hfind, hfull, if_false, hfit, if_true]
    by_cases hchunk : chunk = []
    · simp [hchunk]
    · simp only [hchunk, if_false]
      apply ih (buffer ++ chunk)
      · simp only [List.length_append]
        omega
      · simpa [List.append_assoc] using hno

/-- The buffer stays within the bound. -/
theorem async_read_until_bounded (max_size : Nat) (socket : List (List Char))
    (buffer : List Char) (size : Nat) (read : Receive)
    (hlen : buffer.length ≤ max_size)
    (h : async_read_until max_size socket buffer = .ok (size, read)) :
    read.buffer.length ≤ max_size := by
  induction socket generalizing buffer with
  | nil =>
    rw [async_read_until_nil] at h
    split at h
    · simp only [Except.ok.injEq, Prod.mk.injEq] at h
      rw [← h.2]
      exact hlen
    · split at h <;> simp at h
  | cons chunk later ih =>
    rw [async_read_until_cons] at h
    split at h
    · simp only [Except.ok.injEq, Prod.mk.injEq] at h
      rw [← h.2]
      exact hlen
    · split at h
      · simp at h
      · split at h
        · simp at h
        · split at h
          · rename_i hfit
            apply ih (buffer ++ chunk) _ h
            simp only [List.length_append]
            omega
          · split at h
            · simp only [Except.ok.injEq, Prod.mk.injEq] at h
              rw [← h.2]
              simp only [List.length_append, List.length_take]
              omega
            · simp at h

theorem cobalt_receive_buffered {T : Type} (size_max : Nat)
    (from_string : List Char → Except ComputeError T)
    (socket : List (List Char)) (m rest : List Char) (h : newline ∉ m)
    (hlen : m.length < size_max) :
    Cobalt.receive size_max from_string ⟨socket, m ++ newline :: rest⟩
      = (match from_string m with
         | .error e => .error (.value e)
         | .ok value => .ok (value, ⟨socket, rest⟩)) := by
  unfold Cobalt.receive
  simp only [async_read_until_buffered size_max socket m rest h hlen, take_message,
    drop_message]

theorem receive_next_one_read {T : Type} (from_string : List Char → Except ComputeError T)
    (later : List (List Char)) (m rest : List Char) (h : newline ∉ m)
    (hlen : (m ++ newline :: rest).length ≤ 256) :
    Receive.next from_string (receive ((m ++ newline :: rest) :: later))
      = .ok (from_string m, ⟨later, rest⟩) := by
  have hm : m.length < 256 := by
    simp only [List.length_append, List.length_cons] at hlen
    omega
  have hread : async_read_until 256 ((m ++ newline :: rest) :: later) []
      = async_read_until 256 later (m ++ newline :: rest) := by
    rw [async_read_until_cons]
    have hne : m ++ newline :: rest ≠ [] := by simp
    have hfit : (m ++ newline :: rest).length ≤ 256 - ([] : List Char).length := by
      simpa using hlen
    have hfull : ¬ 256 ≤ ([] : List Char).length := by simp
    simp only [List.take_nil, find_delim, hfull, if_false, hne, hfit, if_true,
      List.nil_append]
  unfold Receive.next receive
  simp only [hread, async_read_until_buffered 256 later m rest h hm, take_message,
    drop_message]

/-- C15: with the buffer holding `m`, a newline and `rest`, where `m` has no
newline and fewer than 256 bytes, one call of `Receive::next` gives the parse
of exactly `m` and leaves exactly `rest` in the buffer; when `m1`, newline,
`m2`, newline arrive in one read of at most 256 bytes, two calls in a row give
the parse of `m1` and then that of `m2`.  The generator `receive` of
`main_cobalt.cpp` frames a buffered message in the same way. -/
theorem receive_next_frames :
    (∀ (T : Type) (from_string : List Char → Except ComputeError T)
        (socket : List (List Char)) (m rest : List Char),
      newline ∉ m → m.length < 256 →
      Receive.next from_string ⟨socket, m ++ newline :: rest⟩
        = .ok (from_string m, ⟨socket, rest⟩))
    ∧ (∀ (T : Type) (from_string : List Char → Except ComputeError T)
        (later : List (List Char)) (m1 m2 : List Char),
      newline ∉ m1 → newline ∉ m2 → m1.length + m2.length + 2 ≤ 256 →
      Receive.next from_string (receive ((m1 ++ newline :: (m2 ++ [newline])) :: later))
          = .ok (from_string m1, ⟨later, m2 ++ [newline]⟩)
        ∧ Receive.next from_string ⟨later, m2 ++ [newline]⟩
          = .ok (from_string m2, ⟨later, []⟩))
    ∧ (∀ (T : Type) (size_max : Nat) (from_string : List Char → Except ComputeError T)
        (socket : List (List Char)) (m rest : List Char),
      newline ∉ m → m.length < size_max →
      Cobalt.receive size_max from_string ⟨socket, m ++ newline :: rest⟩
        = (match from_string m with
           | .error e => .error (.value e)
           | .ok value => .ok (value, ⟨socket, rest⟩))) := by
  refine ⟨fun T f socket m rest h hlen => receive_next_buffered f socket m rest h hlen, ?_,
    fun T size_max f socket m rest h hlen =>
      cobalt_receive_buffered size_max f socket m rest h hlen⟩
  intro T f later m1 m2 h1 h2 hlen
  constructor
  · apply receive_next_one_read f later m1 (m2 ++ [newline]) h1
    simp only [List.length_append, List.length_cons, List.length_nil]
    omega
  · exact receive_next_buffered f later m2 [] h2 (by omega)

theorem receive_next_frames_witness :
    Receive.next Command.from_string ⟨[], "add 3".toList ++ newline :: "comp".toList⟩
        = .ok (Command.from_string "add 3".toList, ⟨[], "comp".toList⟩)
      ∧ (Receive.next Command.from_string
            (receive (("init 5".toList ++ newline :: ("compute".toList ++ [newline])) :: []))
          = .ok (Command.from_string "init 5".toList, ⟨[], "compute".toList ++ [newline]⟩)
        ∧ Receive.next Command.from_string ⟨[], "compute".toList ++ [newline]⟩
          = .ok (Command.from_string "compute".toList, ⟨[], []⟩))
      ∧ Cobalt.receive 1000 Answer.from_string ⟨[], "answer 8".toList ++ newline :: []⟩
        = (match Answer.from_string "answer 8".toList with
           | .error e => .error (.value e)
           | .ok value => .ok (value, ⟨[], []⟩)) :=
  ⟨receive_next_frames.1 Command Command.from_string [] "add 3".toList "comp".toList
     (by decide) (by decide),
   receive_next_frames.2.1 Command Command.from_string [] "init 5".toList "compute".toList
     (by decide) (by decide) (by decide),
   receive_next_frames.2.2 Answer 1000 Answer.from_string [] "answer 8".toList []
     (by decide) (by decide)⟩

theorem async_read_until_state_nil (max_size : Nat) (buffer : List Char) :
    async_read_until_state max_size [] buffer =
      (match find_delim (buffer.take max_size) with
       | some i => (.ok (i + 1), ⟨[], buffer⟩)
       | none =>
         if max_size ≤ buffer.length then (.error .not_found, ⟨[], buffer⟩)
         else (.error .eof, ⟨[], buffer⟩)) := by
  rfl

theorem async_read_until_state_cons (max_size : Nat) (chunk : List Char)
    (later : List (List Char)) (buffer : List Char) :
    async_read_until_state max_size (chunk :: later) buffer =
      (match find_delim (buffer.take max_size) with
       | some i => (.ok (i + 1), ⟨chunk :: later, buffer⟩)
       | none =>
         if max_size ≤ buffer.length then (.error .not_found, ⟨chunk :: later, buffer⟩)
         else if chunk = [] then (.error .eof, ⟨later, buffer⟩)
         else if chunk.length ≤ max_size - buffer.length then
           async_read_until_state max_size later (buffer ++ chunk)
         else
           match find_delim (buffer ++ chunk.take (max_size - buffer.length)) with
           | some i => (.ok (i + 1), ⟨chunk.drop (max_size - buffer.length) :: later,
               buffer ++ chunk.take (max_size - buffer.length)⟩)
           | none => (.error .not_found, ⟨chunk.drop (max_size - buffer.length) :: later,
               buffer ++ chunk.take (max_size - buffer.length)⟩)) := by
  rfl

/-- The call with its state has the outcome of `async_read_until`, and on
completion without error the same socket and buffer. -/
theorem async_read_until_eq_state (max_size : Nat) (socket : List (List Char))
    (buffer : List Char) :
    async_read_until max_size socket buffer =
      (match (async_read_until_state max_size socket buffer).1 with
       | .ok size => .ok (size, (async_read_until_state max_size socket buffer).2)
       | .error e => .error e) := by
  induction socket generalizing buffer with
  | nil =>
    rw [async_read_until_nil, async_read_until_state_nil]
    split
    · rfl
    · split <;> rfl
  | cons chunk later ih =>
    rw [async_read_until_cons, async_read_until_state_cons]
    split
    · rfl
    · split
      · rfl
      · split
        · rfl
        · split
          · exact ih (buffer ++ chunk)
          · split <;> rfl

/-- Whatever the outcome of the call, a buffer within the bound stays within
the bound. -/
theorem async_read_until_state_bounded (max_size : Nat) (socket : List (List Char))
    (buffer : List Char) (hlen : buffer.length ≤ max_size) :
    (async_read_until_state max_size socket buffer).2.buffer.length ≤ max_size := by
  induction socket generalizing buffer with
  | nil =>
    rw [async_read_until_state_nil]
    split
    · exact hlen
    · split <;> exact hlen
  | cons chunk later ih =>
    rw [async_read_until_state_cons]
    split
    · exact hlen
    · split
      · exact hlen
      · split
        · exact hlen
        · split
          · rename_i hfit
            apply ih (buffer ++ chunk)
            simp only [List.length_append]
            omega
          · split
            · simp only [List.length_append, List.length_take]
              omega
            · simp only [List.length_append, List.length_take]
              omega

theorem take_stream_of_full (buffer more : List Char) (n : Nat)
    (h1 : buffer.length ≤ n) (h2 : n ≤ buffer.length) : (buffer ++ more).take n = buffer := by
  have e : n = buffer.length := by omega
  rw [e]
  exact List.take_left' rfl

theorem take_stream_of_cut (buffer chunk more : List Char) (n : Nat)
    (h1 : buffer.length < n) (h2 : ¬ chunk.length ≤ n - buffer.length) :
    (buffer ++ (chunk ++ more)).take n = buffer ++ chunk.take (n - buffer.length) := by
  rw [List.take_append_eq_append_take, List.take_of_length_le (Nat.le_of_lt h1),
    List.take_append_eq_append_take]
  have e : n - buffer.length - chunk.length = 0 := by omega
  rw [e]
  simp

/-- A stream that fills the buffer without a delimiter: the call completes
with `not_found` and leaves in the buffer exactly the first `max_size` bytes
of the stream. -/
theorem async_read_until_state_not_found (max_size : Nat) (socket : List (List Char))
    (buffer : List Char) (hchunks : ∀ chunk ∈ socket, chunk ≠ [])
    (hbuf : buffer.length ≤ max_size)
    (hlen : max_size ≤ (buffer ++ socket.flatten).length)
    (hno : newline ∉ (buffer ++ socket.flatten).take max_size) :
    (async_read_until_state max_size socket buffer).1 = .error .not_found
      ∧ (async_read_until_state max_size socket buffer).2.buffer
          = (buffer ++ socket.flatten).take max_size := by
  induction socket generalizing buffer with
  | nil =>
    simp only [List.flatten_nil, List.append_nil] at hlen hno ⊢
    rw [async_read_until_state_nil]
    simp only [find_delim_none _ hno, hlen, if_true]
    exact ⟨trivial, (List.take_of_length_le hbuf).symm⟩
  | cons chunk later ih =>
    have hfind : find_delim (buffer.take max_size) = none :=
      find_delim_none _ (not_mem_take_left buffer _ max_size hno)
    have hchunk : chunk ≠ [] := hchunks chunk (List.mem_cons_self _ _)
    rw [async_read_until_state_cons]
    simp only [hfind]
    by_cases hfull : max_size ≤ buffer.length
    · simp only [hfull, if_true]
      exact ⟨trivial, (take_stream_of_full buffer _ max_size hbuf hfull).symm⟩
    · simp only [hfull, if_false, hchunk]
      by_cases hfit : chunk.length ≤ max_size - buffer.length
      · simp only [hfit, if_true]
        have h := ih (buffer ++ chunk) (fun c hc => hchunks c (List.mem_cons_of_mem _ hc))
          (by simp only [List.length_append]; omega)
          (by simpa [List.append_assoc] using hlen)
          (by simpa [List.append_assoc] using hno)
        simpa [List.append_assoc] using h
      · simp only [hfit, if_false]
        have hn : newline ∉ buffer ++ chunk.take (max_size - buffer.length) := by
          apply not_mem_filled buffer chunk later.flatten max_size (by omega)
          simpa using hno
        simp only [find_delim_none _ hn, List.flatten_cons]
        exact ⟨trivial, (take_stream_of_cut buffer chunk _ max_size (by omega) hfit).symm⟩

set_option maxRecDepth 100000 in
/-- C16 fails on the code: on 300 bytes without delimiter `Receive::next`
returns no typed error, `async_read_until` throws `not_found`; the generator
of `main_cobalt.cpp` buffers all of them and throws the `eof` of a closed
connection, and it frames and parses a message of more than 300 bytes. -/
theorem oversize_frame :
    Receive.next Command.from_string (receive [List.replicate 300 'a']) = .error .not_found
    ∧ Cobalt.receive (2 ^ 64 - 1) Command.from_string (receive [List.replicate 300 'a'])
        = .error (.read .eof)
    ∧ Cobalt.receive (2 ^ 64 - 1) Command.from_string
        (receive ["init".toList ++ List.replicate 300 ' ' ++ "7".toList ++ [newline]])
        = .ok (.Init 7, ⟨[], []⟩) := by
  decide

/-- C16 as amended: `Receive::next` of `main_asio.cpp` bounds its buffer at 256
bytes.  When the buffer and the reads to come hold at least 256 bytes and no
delimiter among the first 256, the call throws the error `not_found` of
`async_read_until` and parses nothing; that error differs from `eof`, thrown
when the stream ends without delimiter before 256 bytes.  Whatever the outcome
of the call, a buffer of at most 256 bytes does not grow beyond 256 bytes: the
failing call leaves in it exactly the first 256 bytes of the stream. -/
theorem receive_next_bounded :
    (∀ (T : Type) (from_string : List Char → Except ComputeError T)
        (socket : List (List Char)) (buffer : List Char),
      (∀ chunk ∈ socket, chunk ≠ []) →
      256 ≤ (buffer ++ socket.flatten).length →
      newline ∉ (buffer ++ socket.flatten).take 256 →
      Receive.next from_string ⟨socket, buffer⟩ = .error .not_found)
    ∧ (∀ (T : Type) (from_string : List Char → Except ComputeError T)
        (socket : List (List Char)) (buffer : List Char),
      (buffer ++ socket.flatten).length < 256 →
      newline ∉ buffer ++ socket.flatten →
      Receive.next from_string ⟨socket, buffer⟩ = .error .eof)
    ∧ ReadError.not_found ≠ ReadError.eof
    ∧ (∀ (socket : List (List Char)) (buffer : List Char) (size : Nat) (read : Receive),
      buffer.length ≤ 256 →
      async_read_until 256 socket buffer = .ok (size, read) →
      read.buffer.length ≤ 256)
    ∧ (∀ (socket : List (List Char)) (buffer : List Char),
      async_read_until 256 socket buffer =
        (match (async_read_until_state 256 socket buffer).1 with
         | .ok size => .ok (size, (async_read_until_state 256 socket buffer).2)
         | .error e => .error e))
    ∧ (∀ (socket : List (List Char)) (buffer : List Char),
      buffer.length ≤ 256 →
      (async_read_until_state 256 socket buffer).2.buffer.length ≤ 256)
    ∧ (∀ (socket : List (List Char)) (buffer : List Char),
      (∀ chunk ∈ socket, chunk ≠ []) →
      buffer.length ≤ 256 →
      256 ≤ (buffer ++ socket.flatten).length →
      newline ∉ (buffer ++ socket.flatten).take 256 →
      (async_read_until_state 256 socket buffer).1 = .error .not_found
        ∧ (async_read_until_state 256 socket buffer).2.buffer
            = (buffer ++ socket.flatten).take 256) := by
  refine ⟨?_, ?_, by decide, ?_, ?_, ?_, ?_⟩
  · intro T f socket buffer hchunks hlen hno
    unfold Receive.next
    simp only [async_read_until_not_found 256 socket buffer hchunks hlen hno]
  · intro T f socket buffer hlen hno
    unfold Receive.next
    simp only [async_read_until_eof 256 socket buffer hlen hno]
  · intro socket buffer size read hlen h
    exact async_read_until_bounded 256 socket buffer size read hlen h
  · intro socket buffer
    exact async_read_until_eq_state 256 socket buffer
  · intro socket buffer hlen
    exact async_read_until_state_bounded 256 socket buffer hlen
  · intro socket buffer hchunks hbuf hlen hno
    exact async_read_until_state_not_found 256 socket buffer hchunks hbuf hlen hno

set_option maxRecDepth 100000 in
theorem receive_next_bounded_witness :
    Receive.next Command.from_string
        ⟨[List.replicate 200 'b', "init 1".toList ++ [newline]], List.replicate 100 'a'⟩
      = .error .not_found
    ∧ Receive.next Command.from_string ⟨["init".toList, " 1".toList], []⟩ = .error .eof
    ∧ (⟨["7".toList], "init 1".toList ++ [newline]⟩ : Receive).buffer.length ≤ 256
    ∧ (async_read_until_state 256 [List.replicate 200 'b', "init 1".toList ++ [newline]]
        (List.replicate 100 'a')).2.buffer.length ≤ 256
    ∧ ((async_read_until_state 256 [List.replicate 200 'b', "init 1".toList ++ [newline]]
          (List.replicate 100 'a')).1 = .error .not_found
        ∧ (async_read_until_state 256 [List.replicate 200 'b', "init 1".toList ++ [newline]]
          (List.replicate 100 'a')).2.buffer
          = (List.replicate 100 'a'
              ++ [List.replicate 200 'b', "init 1".toList ++ [newline]].flatten).take 256) :=
  ⟨receive_next_bounded.1 Command Command.from_string
     [List.replicate 200 'b', "init 1".toList ++ [newline]] (List.replicate 100 'a')
     (by decide) (by decide) (by decide),
   receive_next_bounded.2.1 Command Command.from_string ["init".toList, " 1".toList] []
     (by decide) (by decide),
   receive_next_bounded.2.2.2.1 ["7".toList] ("init 1".toList ++ [newline]) 7
     ⟨["7".toList], "init 1".toList ++ [newline]⟩ (by decide) (by decide),
   receive_next_bounded.2.2.2.2.2.1 [List.replicate 200 'b', "init 1".toList ++ [newline]]
     (List.replicate 100 'a') (by decide),
   receive_next_bounded.2.2.2.2.2.2 [List.replicate 200 'b', "init 1".toList ++ [newline]]
     (List.replicate 100 'a') (by decide) (by decide) (by decide) (by decide)⟩

/-! ## Added white space -/

theorem split_cons_of_isspace (c : Char) (cs : List Char) (h : isspace c = true) :
    split (c :: cs) =
      (if cs.head?.map isspace = some true then split cs else [] :: split cs) := by
  conv => lhs; unfold split
  cases hs : split cs with
  | nil => exact absurd hs (split_ne_nil cs)
  | cons t ts =>
    cases cs with
    | nil =>
      simp only [split, List.cons.injEq] at hs
      obtain ⟨h1, h2⟩ := hs
      subst h1 h2
      simp [h]
    | cons d ds =>
      by_cases hd : isspace d = true <;> simp [h, hd]

theorem split_cons_congr (c : Char) (t1 t2 : List Char) (hsplit : split t1 = split t2)
    (hkey : t1.head?.map isspace = t2.head?.map isspace) :
    split (c :: t1) = split (c :: t2) := by
  by_cases hc : isspace c = true
  · rw [split_cons_of_isspace c t1 hc, split_cons_of_isspace c t2 hc, hsplit, hkey]
  · have hc2 : isspace c = false := by simpa using hc
    rw [split_cons_of_not_isspace c t1 hc2, split_cons_of_not_isspace c t2 hc2, hsplit]

theorem split_append_congr (a t1 t2 : List Char) (hsplit : split t1 = split t2)
    (hkey : t1.head?.map isspace = t2.head?.map isspace) :
    split (a ++ t1) = split (a ++ t2)
      ∧ (a ++ t1).head?.map isspace = (a ++ t2).head?.map isspace := by
  induction a with
  | nil => exact ⟨hsplit, hkey⟩
  | cons x a ih =>
    exact ⟨split_cons_congr x _ _ ih.1 ih.2, rfl⟩

/-- One more white space character next to one that is there leaves the
tokens as they are. -/
theorem split_add_space (a b : List Char) (x sp : Char) (hx : isspace x = true)
    (hsp : isspace sp = true) :
    split (a ++ x :: sp :: b) = split (a ++ x :: b)
      ∧ split (a ++ sp :: x :: b) = split (a ++ x :: b) := by
  have h1 : split (x :: sp :: b) = split (sp :: b) := by
    rw [split_cons_of_isspace x _ hx]
    simp [hsp]
  have h2 : split (sp :: b) = split (x :: b) := by
    rw [split_cons_of_isspace sp _ hsp, split_cons_of_isspace x _ hx]
  have h3 : split (sp :: x :: b) = split (x :: b) := by
    rw [split_cons_of_isspace sp _ hsp]
    simp [hx]
  constructor
  · exact (split_append_congr a _ _ (h1.trans h2) (by simp [hx])).1
  · exact (split_append_congr a _ _ h3 (by simp [hx, hsp])).1

/-- A white space character at the end of the line leaves the tokens as they
are or adds one empty token after them. -/
theorem split_space_at_end (t : List Char) (sp : Char) (hsp : isspace sp = true) :
    split (t ++ [sp]) = split t ∨ split (t ++ [sp]) = split t ++ [[]] := by
  induction t with
  | nil =>
    right
    simp [split, hsp]
  | cons x t ih =>
    have hkey : t ≠ [] → (t ++ [sp]).head?.map isspace = t.head?.map isspace := by
      intro hne
      cases t with
      | nil => exact absurd rfl hne
      | cons y t => rfl
    by_cases ht : t = []
    · subst ht
      by_cases hx : isspace x = true
      · left
        show split (x :: [sp]) = split [x]
        rw [split_cons_of_isspace x _ hx, split_cons_of_isspace x _ hx]
        simp [split, hsp]
      · right
        have hx2 : isspace x = false := by simpa using hx
        show split (x :: [sp]) = split [x] ++ [[]]
        rw [split_cons_of_not_isspace x _ hx2, split_cons_of_not_isspace x _ hx2]
        simp [split, hsp]
    · rcases ih with h | h
      · left
        exact split_cons_congr x _ _ h (hkey ht)
      · right
        rw [List.cons_append]
        by_cases hx : isspace x = true
        · rw [split_cons_of_isspace x _ hx, split_cons_of_isspace x _ hx, hkey ht, h]
          split <;> simp
        · have hx2 : isspace x = false := by simpa using hx
          rw [split_cons_of_not_isspace x _ hx2, split_cons_of_not_isspace x _ hx2, h]
          cases hs : split t with
          | nil => exact absurd hs (split_ne_nil t)
          | cons u us => simp

theorem from_string_of_split_eq (s t : List Char) (h : split t = split s) :
    Command.from_string t = Command.from_string s := by
  unfold Command.from_string
  rw [h]

theorem from_string_extra_token (s t : List Char) (c : Command)
    (h : split t = split s ++ [[]]) (hs : Command.from_string s = .ok c) :
    Command.from_string t = .ok c := by
  unfold Command.from_string at hs ⊢
  rw [h]
  cases hsp : split s with
  | nil => exact absurd hsp (split_ne_nil s)
  | cons name rest =>
    rw [hsp] at hs
    simp only [List.cons_append]
    simp only at hs
    by_cases hn : name = "compute".toList
    · simp only [hn, if_true] at hs ⊢
      exact hs
    · simp only [hn, if_false] at hs ⊢
      cases rest with
      | nil => simp at hs
      | cons v r => exact hs

/-- C13 fails on the code: `"add 1"` parses to `Add(1)` and `"compute"` to
`Compute`, but with one space added before the first token the split starts
with an empty token and both lines are refused with `InvalidValue`. -/
theorem leading_space_not_ignored :
    Command.from_string "add 1".toList = .ok (.Add 1)
    ∧ Command.from_string " add 1".toList = .error .InvalidValue
    ∧ Command.from_string "compute".toList = .ok .Compute
    ∧ Command.from_string " compute".toList = .error .InvalidValue := by
  decide

/-- C13 as amended: white space added between two tokens or after the last
token is ignored.  For every line that `Command::from_string` parses to a
command `c`, every line got from it by adding white space characters, each
next to a white space character already there or at the end of the line, also
parses to `c`. -/
theorem added_space_ignored (s t : List Char) (c : Command) (hpad : Padded s t)
    (hs : Command.from_string s = .ok c) : Command.from_string t = .ok c := by
  induction hpad with
  | same => exact hs
  | after_space a b x sp _ hx hsp ih =>
    rw [from_string_of_split_eq _ _ (split_add_space a b x sp hx hsp).1]
    exact ih
  | before_space a b x sp _ hx hsp ih =>
    rw [from_string_of_split_eq _ _ (split_add_space a b x sp hx hsp).2]
    exact ih
  | at_end t sp _ hsp ih =>
    rcases split_space_at_end t sp hsp with h | h
    · rw [from_string_of_split_eq _ _ h]
      exact ih
    · exact from_string_extra_token t _ c h ih

theorem added_space_ignored_witness :
    Command.from_string ("mul".toList ++ ' ' :: Char.ofNat 9 :: "-3".toList ++ [' '])
      = .ok (.Mul (-3)) :=
  added_space_ignored "mul -3".toList
    ("mul".toList ++ ' ' :: Char.ofNat 9 :: "-3".toList ++ [' ']) (.Mul (-3))
    (Padded.at_end _ _ ' '
      (Padded.after_space _ "mul".toList "-3".toList ' ' (Char.ofNat 9)
        (Padded.same _) (by decide) (by decide))
      (by decide))
    (by decide)

/-! ## Surplus tokens -/

theorem from_string_of_head_compute (s : List Char)
    (h : (split s).head? = some "compute".toList) :
    Command.from_string s = .ok .Compute := by
  unfold Command.from_string
  cases hs : split s with
  | nil => exact absurd hs (split_ne_nil s)
  | cons name rest =>
    rw [hs] at h
    simp only [List.head?_cons, Option.some.injEq] at h
    simp only [h, if_true]

theorem from_string_of_take_two (s t : List Char)
    (h : (split s).take 2 = (split t).take 2) :
    Command.from_string s = Command.from_string t := by
  unfold Command.from_string
  cases hs : split s with
  | nil => exact absurd hs (split_ne_nil s)
  | cons n1 r1 =>
    cases ht : split t with
    | nil => exact absurd ht (split_ne_nil t)
    | cons n2 r2 =>
      rw [hs, ht] at h
      cases r1 with
      | nil =>
        cases r2 with
        | nil =>
          simp only [List.take, List.cons.injEq, and_true] at h
          subst h
          rfl
        | cons v2 q2 => simp [List.take] at h
      | cons v1 q1 =>
        cases r2 with
        | nil => simp [List.take] at h
        | cons v2 q2 =>
          simp only [List.take, List.cons.injEq, and_true] at h
          obtain ⟨h1, h2⟩ := h
          subst h1 h2
          rfl

/-- C21: `Command::from_string` ignores surplus tokens.  An input whose first
token is `compute` parses to `Compute` whatever follows, and two inputs with
the same first two tokens (or the same single token) have the same result; so
`"compute 5"` parses to `Compute` and `"add 1 2"` to `Add(1)`. -/
theorem surplus_tokens_ignored :
    (∀ s : List Char, (split s).head? = some "compute".toList →
      Command.from_string s = .ok .Compute)
    ∧ (∀ s t : List Char, (split s).take 2 = (split t).take 2 →
      Command.from_string s = Command.from_string t)
    ∧ Command.from_string "compute 5".toList = .ok .Compute
    ∧ Command.from_string "add 1 2".toList = .ok (.Add 1) :=
  ⟨from_string_of_head_compute, from_string_of_take_two, by decide, by decide⟩

theorem surplus_tokens_ignored_witness :
    Command.from_string "compute init x".toList = .ok .Compute
      ∧ Command.from_string "div 4 0 abc".toList = Command.from_string "div 4".toList :=
  ⟨surplus_tokens_ignored.1 "compute init x".toList (by decide),
   surplus_tokens_ignored.2.1 "div 4 0 abc".toList "div 4".toList (by decide)⟩

end CxxAsync
